import Mathlib

/-!
Shallow embedding of the token-sampling layer
(`aphrodite/modeling/layers/sampler.py`) and proofs about its
logit-filter pipeline, draw strategies and logprob extraction.

Conventions of the embedding:
* a logit is a `WithBot ℚ`; `⊥` models the floating-point `-inf` used by
  the code to mask tokens (`ELogit` below);
* the transcendental functions that the code takes from `torch`
  (`exp`, the logarithm inside `log_softmax`, `sqrt`) are parameters of
  the embedding, bundled in `NumModel`; the proofs only ever use the
  positivity of the `exp` model, which holds for the real `exp` as well;
* a logits matrix is a `List` of rows, row-major, as in the
  `[num_tokens, vocab_size]` tensor of the code;
* `torch.sort` with equal keys is modelled as the stable sort by
  (key, original index); tensor `gather`/`scatter` with an (inverse)
  permutation of indices is modelled by `List.indexOf` lookups.
-/

namespace AphroditeSampler

/-- Extended logit: `⊥` models the `-float("inf")` mask value. -/
abbrev ELogit := WithBot ℚ

/-- A logits (or probabilities after masking) matrix, row major. -/
abbrev LMat := List (List ELogit)

/-- Model of the numeric primitives the sampler takes from `torch`:
`e` models `torch.exp`, `ln` models the logarithm used by
`torch.log_softmax`, `sq` models `torch.sqrt`. -/
structure NumModel where
  e : ℚ → ℚ
  ln : ℚ → ℚ
  sq : ℚ → ℚ

/-- `exp` extended to masked logits: `exp(-inf) = 0`. -/
def expE (nm : NumModel) (x : ELogit) : ℚ :=
  match x with
  | ⊥ => 0
  | (q : ℚ) => nm.e q

/-- Row softmax, as `torch.softmax` on a row that may contain `-inf`
entries: `exp(x_i) / Σ_j exp(x_j)`. -/
def softmaxRow (nm : NumModel) (row : List ELogit) : List ℚ :=
  let s := (row.map (expE nm)).sum
  row.map (fun x => expE nm x / s)

/-- Row log-softmax, as `torch.log_softmax`: `x_i - log Σ_j exp(x_j)`,
with `-inf` entries staying `-inf`. -/
def logSoftmaxRow (nm : NumModel) (row : List ELogit) : List ELogit :=
  let s := (row.map (expE nm)).sum
  row.map (WithBot.map (fun v => v - nm.ln s))

/-- Inclusive prefix sums (auxiliary with running total). -/
def cumsumGo (acc : ℚ) : List ℚ → List ℚ
  | [] => []
  | x :: xs => (acc + x) :: cumsumGo (acc + x) xs

/-- Inclusive prefix sums, as `torch.cumsum` along a row. -/
def cumsum (l : List ℚ) : List ℚ := cumsumGo 0 l

/-- First discrete difference, as `tensor.diff()`: `a[i+1] - a[i]`. -/
def diffL : List ℚ → List ℚ
  | x :: y :: rest => (y - x) :: diffL (y :: rest)
  | _ => []

/-- Maximum of a list of probabilities (all entries are nonnegative in
every use), as `tensor.max(dim=-1)` on a row. -/
def listMax (l : List ℚ) : ℚ := l.foldr max 0

/-- Index of the first occurrence of the maximum, as `torch.argmax` on a
row (auxiliary loop). -/
def argmaxGo (pos bi : ℕ) (bv : ℚ) : List ℚ → ℕ
  | [] => bi
  | y :: ys => if bv < y then argmaxGo (pos + 1) pos y ys else argmaxGo (pos + 1) bi bv ys

/-- Index of the first occurrence of the maximum, as `torch.argmax` on a
row; `0` on the empty row. -/
def argmaxList : List ℚ → ℕ
  | [] => 0
  | x :: xs => argmaxGo 1 0 x xs

/-- Stable ascending order on (index, key) pairs: by key, ties by
original position.  Models `torch.sort(descending=False)`. -/
def pairLE {β : Type} [LinearOrder β] (a b : ℕ × β) : Prop :=
  a.2 < b.2 ∨ (a.2 = b.2 ∧ a.1 ≤ b.1)

/-- Stable descending order on (index, key) pairs: by key downward, ties
by original position.  Models `torch.sort(descending=True)`. -/
def pairGE {β : Type} [LinearOrder β] (a b : ℕ × β) : Prop :=
  b.2 < a.2 ∨ (a.2 = b.2 ∧ a.1 ≤ b.1)

instance {β : Type} [LinearOrder β] : DecidableRel (pairLE (β := β)) := fun a b =>
  inferInstanceAs (Decidable (a.2 < b.2 ∨ (a.2 = b.2 ∧ a.1 ≤ b.1)))

instance {β : Type} [LinearOrder β] : DecidableRel (pairGE (β := β)) := fun a b =>
  inferInstanceAs (Decidable (b.2 < a.2 ∨ (a.2 = b.2 ∧ a.1 ≤ b.1)))

instance {β : Type} [LinearOrder β] : IsTotal (ℕ × β) pairLE where
  total a b := by
    rcases lt_trichotomy a.2 b.2 with h | h | h
    · exact Or.inl (Or.inl h)
    · rcases Nat.le_total a.1 b.1 with h1 | h1
      · exact Or.inl (Or.inr ⟨h, h1⟩)
      · exact Or.inr (Or.inr ⟨h.symm, h1⟩)
    · exact Or.inr (Or.inl h)

instance {β : Type} [LinearOrder β] : IsTrans (ℕ × β) pairLE where
  trans a b c hab hbc := by
    rcases hab with h1 | ⟨h1, h1i⟩
    · rcases hbc with h2 | ⟨h2, _⟩
      · exact Or.inl (h1.trans h2)
      · exact Or.inl (h2 ▸ h1)
    · rcases hbc with h2 | ⟨h2, h2i⟩
      · exact Or.inl (h1 ▸ h2)
      · exact Or.inr ⟨h1.trans h2, h1i.trans h2i⟩

instance {β : Type} [LinearOrder β] : IsTotal (ℕ × β) pairGE where
  total a b := by
    rcases lt_trichotomy a.2 b.2 with h | h | h
    · exact Or.inr (Or.inl h)
    · rcases Nat.le_total a.1 b.1 with h1 | h1
      · exact Or.inl (Or.inr ⟨h, h1⟩)
      · exact Or.inr (Or.inr ⟨h.symm, h1⟩)
    · exact Or.inl (Or.inl h)

instance {β : Type} [LinearOrder β] : IsTrans (ℕ × β) pairGE where
  trans a b c hab hbc := by
    rcases hab with h1 | ⟨h1, h1i⟩
    · rcases hbc with h2 | ⟨h2, _⟩
      · exact Or.inl (h2.trans h1)
      · exact Or.inl (h2 ▸ h1)
    · rcases hbc with h2 | ⟨h2, h2i⟩
      · exact Or.inl (h1.symm ▸ h2)
      · exact Or.inr ⟨h1.trans h2, h1i.trans h2i⟩

/-- Undo a sort: `torch.gather(final, dim=-1, index=argsort(idxList))`.
Output position `i` receives the entry of `final` at the position where
`i` sits in `idxList`. -/
def unsortGather (n : ℕ) (idxList : List ℕ) (final : List ELogit) : List ELogit :=
  (List.range n).map (fun i => final.getD (idxList.indexOf i) ⊥)

/-- `_apply_top_k_top_p` on one row: ascending sort, mask strictly below
the k-th largest value, then mask the low-end cumulative softmax mass
`≤ 1 - p` (last sorted position always exempted), and unsort. -/
def applyTopKTopPRow (nm : NumModel) (p : ℚ) (k : ℕ) (row : List ELogit) : List ELogit :=
  let n := row.length
  let sortedPairs := row.enum.insertionSort pairLE
  let idxList := sortedPairs.map Prod.fst
  let sortedVals := sortedPairs.map Prod.snd
  let thr := sortedVals.getD (n - k) ⊥
  let topKMasked := sortedVals.map (fun v => if v < thr then (⊥ : ELogit) else v)
  let probsSort := softmaxRow nm topKMasked
  let probsSum := cumsum probsSort
  let mask0 := probsSum.map (fun c => decide (c ≤ 1 - p))
  let topPMask := mask0.set (mask0.length - 1) false
  let finalSorted := List.zipWith (fun (m : Bool) v => if m then (⊥ : ELogit) else v) topPMask topKMasked
  unsortGather n idxList finalSorted

/-- `_apply_top_a` on one row: remove tokens with probability below
`top_a * (max probability)^2`. -/
def applyTopARow (nm : NumModel) (topA : ℚ) (row : List ELogit) : List ELogit :=
  let probs := softmaxRow nm row
  let topProb := listMax probs
  let thr := topProb ^ 2 * topA
  List.zipWith (fun pr x => if pr < thr then (⊥ : ELogit) else x) probs row

/-- `_apply_min_p` on one row: remove tokens with probability below
`min_p * max probability`. -/
def applyMinPRow (nm : NumModel) (minP : ℚ) (row : List ELogit) : List ELogit :=
  let probs := softmaxRow nm row
  let topProb := listMax probs
  let thr := minP * topProb
  List.zipWith (fun pr x => if pr < thr then (⊥ : ELogit) else x) probs row

/-- The descending sort of `_apply_tfs` (pairs of original index and
logit). -/
def tfsSortedPairs (row : List ELogit) : List (ℕ × ELogit) :=
  row.enum.insertionSort pairGE

/-- The cumulative normalized curvature of `_apply_tfs`: softmax of the
descending-sorted row, twice `diff`, absolute value, normalized to sum 1,
cumulative sum. -/
def tfsCurvCdf (nm : NumModel) (row : List ELogit) : List ℚ :=
  let probs := softmaxRow nm ((tfsSortedPairs row).map Prod.snd)
  let d2 := (diffL (diffL probs)).map abs
  let s := d2.sum
  cumsum (d2.map (fun x => x / s))

/-- The removal mask of `_apply_tfs` over sorted positions: a forced
`False` for the first sorted position, the curvature-threshold mask for
the middle, and a forced `True` for the last sorted position. -/
def tfsFullMask (nm : NumModel) (tfs : ℚ) (row : List ELogit) : List Bool :=
  false :: (((tfsCurvCdf nm row).map (fun c => decide (tfs < c))) ++ [true])

/-- `_apply_tfs` on one row. -/
def applyTfsRow (nm : NumModel) (tfs : ℚ) (row : List ELogit) : List ELogit :=
  let sortedPairs := tfsSortedPairs row
  let finalSorted := List.zipWith (fun (m : Bool) v => if m then (⊥ : ELogit) else v)
    (tfsFullMask nm tfs row) (sortedPairs.map Prod.snd)
  unsortGather row.length (sortedPairs.map Prod.fst) finalSorted

/-- The negative entropy `(probs * shifted_logits).nansum(dim=-1)` of a
row: `nansum` turns the `0 * -inf` NaN terms into `0`. -/
def negEntropy (probs : List ℚ) (shifted : List ELogit) : ℚ :=
  (List.zipWith (fun pr s => match s with | ⊥ => (0 : ℚ) | (v : ℚ) => pr * v) probs shifted).sum

/-- `_apply_eta_cutoff` on one row: threshold
`min(eta, sqrt(eta) * exp(-entropy))`, arg-max always exempted. -/
def applyEtaCutoffRow (nm : NumModel) (eta : ℚ) (row : List ELogit) : List ELogit :=
  let shifted := logSoftmaxRow nm row
  let probs := shifted.map (expE nm)
  let eps := min eta (nm.sq eta * nm.e (negEntropy probs shifted))
  let top := argmaxList probs
  row.enum.map (fun iv => if iv.1 ≠ top ∧ probs.getD iv.1 0 < eps then ⊥ else iv.2)

/-- `_apply_epsilon_cutoff` on one row: fixed probability threshold,
arg-max always exempted. -/
def applyEpsilonCutoffRow (nm : NumModel) (epsilon : ℚ) (row : List ELogit) : List ELogit :=
  let probs := softmaxRow nm row
  let top := argmaxList probs
  row.enum.map (fun iv => if iv.1 ≠ top ∧ probs.getD iv.1 0 < epsilon then ⊥ else iv.2)

/-- The surprisal deviations of `_apply_typical_sampling`:
`(neg_entropy - shifted_logits).abs()`, with `-inf` shifted logits
mapped to an infinite deviation. -/
def typicalDevs (negEnt : ℚ) (shifted : List ELogit) : List (WithTop ℚ) :=
  shifted.map (fun s => match s with | ⊥ => (⊤ : WithTop ℚ) | (v : ℚ) => (abs (negEnt - v) : ℚ))

/-- `_apply_typical_sampling` on one row: sort by surprisal deviation,
mask once the cumulative probability in that order reaches `typical_p`,
always keep the least-deviating token, scatter the mask back. -/
def applyTypicalRow (nm : NumModel) (typP : ℚ) (row : List ELogit) : List ELogit :=
  let shifted := logSoftmaxRow nm row
  let probs := shifted.map (expE nm)
  let devs := typicalDevs (negEntropy probs shifted) shifted
  let sortedPairs := devs.enum.insertionSort pairLE
  let indices := sortedPairs.map Prod.fst
  let reorderedProbs := indices.map (fun i => probs.getD i 0)
  let cums := cumsum reorderedProbs
  let maskSorted := (cums.map (fun c => decide (typP ≤ c))).set 0 false
  row.enum.map (fun iv => if maskSorted.getD (indices.indexOf iv.1) false then ⊥ else iv.2)

/-- `_apply_quadratic_sampling` on one row: rows with positive smoothing
factor get each finite logit `v` replaced by
`-(k·f·(v-max)^2) + s·f·(v-max)^3 + max` with `k = (3-curve)/2`,
`s = (curve-1)/2`; masked entries and rows with factor `≤ 0` are
untouched. -/
def applyQuadraticRow (factor curve : ℚ) (row : List ELogit) : List ELogit :=
  let maxL := row.foldr max ⊥
  if 0 < factor then
    row.map (fun x =>
      match x, maxL with
      | (v : ℚ), (m : ℚ) =>
        (((-((3 - curve) / 2 * factor * (v - m) ^ 2) + (curve - 1) / 2 * factor * (v - m) ^ 3 + m : ℚ)) : ELogit)
      | _, _ => x)
  else row

/-- Temperature scaling on one row: `logits.div_(temperature)`. -/
def applyTemperatureRow (t : ℚ) (row : List ELogit) : List ELogit :=
  row.map (WithBot.map (fun v => v / t))

/-- `_apply_penalties` on one row.  The repetition coefficient applies
only to tokens seen in the prompt or output (`1.0` elsewhere), dividing
positive logits and multiplying non-positive ones; then the frequency
penalty times the output occurrence count and the presence penalty times
the seen-in-output indicator are subtracted.  (The model keeps `-inf`
entries at `-inf`; the builder validates repetition coefficients to be
positive, where this matches the float arithmetic.) -/
def applyPenaltiesRow (promptToks outToks : List ℕ) (pres freq rep : ℚ)
    (row : List ELogit) : List ELogit :=
  row.enum.map (fun iv =>
    let v := iv.1
    let coef := if v ∈ promptToks ∨ v ∈ outToks then rep else 1
    let x1 : ELogit :=
      match iv.2 with
      | ⊥ => ⊥
      | (q : ℚ) => ((if 0 < q then q / coef else q * coef : ℚ) : ELogit)
    WithBot.map
      (fun q => q - freq * (outToks.count v : ℚ) - pres * (if v ∈ outToks then 1 else 0)) x1)

/-- The sampling-policy fields of `SamplingParams` used by the sampler. -/
structure SamplingParamsM where
  minTokens : ℕ := 0
  allStopTokenIds : List ℕ := []
  logprobs : Option ℕ := none
  promptLogprobs : Option ℕ := none
  useBeamSearch : Bool := false
  bestOf : ℕ := 1
  temperature : ℚ := 1
deriving DecidableEq

/-- One `SequenceGroupToSample`: sequence ids, policy, row indices, and
the per-sequence data the sampler reads (`len(output_token_ids_array)`
and `cumulative_logprob`, positionally aligned with `seqIds`). -/
structure SeqGroupM where
  seqIds : List ℕ := []
  samplingParams : SamplingParamsM := {}
  sampleIndices : List ℕ := []
  promptLogprobIndices : List ℕ := []
  doSample : Bool := true
  isPrompt : Bool := false
  outputLens : List ℕ := []
  cumLogprobs : List ℚ := []
deriving DecidableEq

/-- Replace row `r` of a matrix by `f` of it (out-of-range `r` is a
no-op, as for an in-place tensor write with a valid index set). -/
def updRow (m : LMat) (r : ℕ) (f : List ELogit → List ELogit) : LMat :=
  m.set r (f (m.getD r []))

/-- The (row, token) index pairs collected by `_apply_min_tokens_penalty`:
for every group that samples, every sequence with fewer than
`min_tokens` output tokens contributes its row paired with every stop
token id (`itertools.product` order). -/
def penalizedPairs (groups : List SeqGroupM) : List (ℕ × ℕ) :=
  groups.foldl (fun acc g =>
    if !g.doSample then acc
    else
      let start := g.sampleIndices.headD 0
      let p := g.samplingParams
      if 0 < p.minTokens ∧ p.allStopTokenIds ≠ [] then
        let seqsToPenalize := (List.range g.seqIds.length).filter
          (fun j => g.outputLens.getD j 0 < p.minTokens)
        acc ++ seqsToPenalize.flatMap (fun j => p.allStopTokenIds.map (fun t => (start + j, t)))
      else acc) []

/-- `_apply_min_tokens_penalty`: set every collected (row, stop-token)
logit to `-inf`. -/
def applyMinTokensPenalty (groups : List SeqGroupM) (logits : LMat) : LMat :=
  (penalizedPairs groups).foldl (fun m rt => updRow m rt.1 (fun row => row.set rt.2 ⊥)) logits

/-- The per-row batch-aligned parameter tensors
(`SamplingTensors`), one entry per to-be-sampled row. -/
structure SamplingTensorsM where
  temperatures : List ℚ := []
  topPs : List ℚ := []
  topKs : List ℕ := []
  topAs : List ℚ := []
  minPs : List ℚ := []
  tfss : List ℚ := []
  etaCutoffs : List ℚ := []
  epsilonCutoffs : List ℚ := []
  typicalPs : List ℚ := []
  smoothingFactors : List ℚ := []
  smoothingCurves : List ℚ := []
  presencePenalties : List ℚ := []
  frequencyPenalties : List ℚ := []
  repetitionPenalties : List ℚ := []
  promptTokens : List (List ℕ) := []
  outputTokens : List (List ℕ) := []
deriving DecidableEq

/-- The `do_*` flags computed next to the tensors: whether each filter
family is active anywhere in the batch. -/
structure PipelineFlags where
  doPenalties : Bool := false
  doTopPTopK : Bool := false
  doTopAs : Bool := false
  doMinP : Bool := false
  doTfss : Bool := false
  doEtaCutoffs : Bool := false
  doEpsilonCutoffs : Bool := false
  doTypicalPs : Bool := false
  doQuadratic : Bool := false
deriving DecidableEq

/-- Apply a per-row transform across the batch (row `r` of the result is
`f r` of row `r` of the input; the per-row parameters are read off the
batch-aligned tensors by row index). -/
def mapRowsP (f : ℕ → List ELogit → List ELogit) (lg : LMat) : LMat :=
  (List.range lg.length).map (fun r => f r (lg.getD r []))

/-- Batch `_apply_penalties`. -/
def applyPenalties (ts : SamplingTensorsM) (lg : LMat) : LMat :=
  mapRowsP (fun r row => applyPenaltiesRow (ts.promptTokens.getD r []) (ts.outputTokens.getD r [])
    (ts.presencePenalties.getD r 0) (ts.frequencyPenalties.getD r 0)
    (ts.repetitionPenalties.getD r 1) row) lg

/-- Batch temperature scaling (`logits.div_(temperatures.unsqueeze(1))`). -/
def applyTemperatures (ts : SamplingTensorsM) (lg : LMat) : LMat :=
  mapRowsP (fun r row => applyTemperatureRow (ts.temperatures.getD r 1) row) lg

/-- Batch `_apply_top_k_top_p`. -/
def applyTopKTopP (nm : NumModel) (ts : SamplingTensorsM) (lg : LMat) : LMat :=
  mapRowsP (fun r row => applyTopKTopPRow nm (ts.topPs.getD r 1) (ts.topKs.getD r 1) row) lg

/-- Batch `_apply_top_a`. -/
def applyTopA (nm : NumModel) (ts : SamplingTensorsM) (lg : LMat) : LMat :=
  mapRowsP (fun r row => applyTopARow nm (ts.topAs.getD r 0) row) lg

/-- Batch `_apply_min_p`. -/
def applyMinP (nm : NumModel) (ts : SamplingTensorsM) (lg : LMat) : LMat :=
  mapRowsP (fun r row => applyMinPRow nm (ts.minPs.getD r 0) row) lg

/-- Batch `_apply_tfs`. -/
def applyTfs (nm : NumModel) (ts : SamplingTensorsM) (lg : LMat) : LMat :=
  mapRowsP (fun r row => applyTfsRow nm (ts.tfss.getD r 1) row) lg

/-- Batch `_apply_eta_cutoff`. -/
def applyEtaCutoff (nm : NumModel) (ts : SamplingTensorsM) (lg : LMat) : LMat :=
  mapRowsP (fun r row => applyEtaCutoffRow nm (ts.etaCutoffs.getD r 0) row) lg

/-- Batch `_apply_epsilon_cutoff`. -/
def applyEpsilonCutoff (nm : NumModel) (ts : SamplingTensorsM) (lg : LMat) : LMat :=
  mapRowsP (fun r row => applyEpsilonCutoffRow nm (ts.epsilonCutoffs.getD r 0) row) lg

/-- Batch `_apply_typical_sampling`. -/
def applyTypicalSampling (nm : NumModel) (ts : SamplingTensorsM) (lg : LMat) : LMat :=
  mapRowsP (fun r row => applyTypicalRow nm (ts.typicalPs.getD r 0) row) lg

/-- Batch `_apply_quadratic_sampling`. -/
def applyQuadraticSampling (ts : SamplingTensorsM) (lg : LMat) : LMat :=
  mapRowsP (fun r row =>
    applyQuadraticRow (ts.smoothingFactors.getD r 0) (ts.smoothingCurves.getD r 0) row) lg

/-- The logit-transform section of `Sampler.forward`, line by line: the
min-tokens gate, then each filter guarded by its batch-activity flag. -/
def forwardLogits (nm : NumModel) (fl : PipelineFlags) (ts : SamplingTensorsM)
    (groups : List SeqGroupM) (logits : LMat) : LMat :=
  let l0 := applyMinTokensPenalty groups logits
  let l1 := if fl.doPenalties then applyPenalties ts l0 else l0
  let l2 := applyTemperatures ts l1
  let l3 := if fl.doTopPTopK then applyTopKTopP nm ts l2 else l2
  let l4 := if fl.doTopAs then applyTopA nm ts l3 else l3
  let l5 := if fl.doMinP then applyMinP nm ts l4 else l4
  let l6 := if fl.doTfss then applyTfs nm ts l5 else l5
  let l7 := if fl.doEtaCutoffs then applyEtaCutoff nm ts l6 else l6
  let l8 := if fl.doEpsilonCutoffs then applyEpsilonCutoff nm ts l7 else l7
  let l9 := if fl.doTypicalPs then applyTypicalSampling nm ts l8 else l8
  if fl.doQuadratic then applyQuadraticSampling ts l9 else l9

/-- The pipeline strictly after the min-tokens gate, in the fixed order
penalties, temperature, top-k/top-p, top-a, min-p, tail-free, eta
cutoff, epsilon cutoff, typical sampling, quadratic transform. -/
def pipelineAfterGate (nm : NumModel) (fl : PipelineFlags) (ts : SamplingTensorsM)
    (lg : LMat) : LMat :=
  (fun l => if fl.doQuadratic then applyQuadraticSampling ts l else l)
  ((fun l => if fl.doTypicalPs then applyTypicalSampling nm ts l else l)
  ((fun l => if fl.doEpsilonCutoffs then applyEpsilonCutoff nm ts l else l)
  ((fun l => if fl.doEtaCutoffs then applyEtaCutoff nm ts l else l)
  ((fun l => if fl.doTfss then applyTfs nm ts l else l)
  ((fun l => if fl.doMinP then applyMinP nm ts l else l)
  ((fun l => if fl.doTopAs then applyTopA nm ts l else l)
  ((fun l => if fl.doTopPTopK then applyTopKTopP nm ts l else l)
  (applyTemperatures ts
  ((fun l => if fl.doPenalties then applyPenalties ts l else l) lg)))))))))

/-- A concrete computable instance of the numeric model, used to
evaluate the development on closed inputs: `e` is a strictly monotone
positive rational stand-in for `exp`, `ln` is its exact inverse, and
`sq` is an arbitrary stand-in for `sqrt` (no proof depends on it). -/
def ratNumModel : NumModel where
  e := fun q => if 0 ≤ q then q + 1 else 1 / (1 - q)
  ln := fun q => if 1 ≤ q then q - 1 else 1 - 1 / q
  sq := fun q => q

/-- `_modify_greedy_probs_inplace`: zero out every greedily-sampled row
of the probability tensor, then write probability `1` at each sampled
token (`probs[sample_indices, :] = 0; probs[sample_indices,
greedy_samples] = 1.0`, both vectorized tensor writes). -/
def modifyGreedyProbsInplace (probs : List (List ℚ)) (sampleIndices greedySamples : List ℕ) :
    List (List ℚ) :=
  let zeroed := probs.enum.map (fun p => if p.1 ∈ sampleIndices then p.2.map (fun _ => (0 : ℚ)) else p.2)
  zeroed.enum.map (fun p =>
    if p.1 ∈ sampleIndices then p.2.set (greedySamples.getD (sampleIndices.indexOf p.1) 0) 1 else p.2)

/-- The greedy branch of `_sample_with_torch`: arg-max each selected
logprob row, and, when requested, pin the corresponding probability rows
to one-hot; the logprob tensor is returned as it came in. -/
def greedyStep (probs logprobs : List (List ℚ)) (sampleIndices : List ℕ)
    (modifyGreedyProbs : Bool) : (List (List ℚ)) × (List (List ℚ)) × List ℕ :=
  let greedySamples := sampleIndices.map (fun r => argmaxList (logprobs.getD r []))
  (if modifyGreedyProbs then modifyGreedyProbsInplace probs sampleIndices greedySamples else probs,
   logprobs, greedySamples)

/-- `torch.topk` on a row: indices of the `k` largest entries, modelled
with the stable descending order (ties resolved by lower index). -/
def topkIndices (row : List ℚ) (k : ℕ) : List ℕ :=
  ((row.enum.insertionSort pairGE).take k).map Prod.fst

/-- The per-group body of `_beam_search_sample`: in the prompt phase the
top `2*beam_width` tokens of the single parent row, all with parent id
`0`; in the decode phase the global top `2*beam_width` of the rows
shifted by each parent's cumulative logprob, flattened (`parent = index
div vocab`, `token = index mod vocab`). -/
def beamSearchGroup (g : SeqGroupM) (groupLogprobs : List (List ℚ)) : List ℕ × List ℕ :=
  let beamWidth := g.samplingParams.bestOf
  if g.isPrompt then
    (topkIndices (groupLogprobs.getD 0 []) (2 * beamWidth), List.replicate (2 * beamWidth) 0)
  else
    let shifted := List.zipWith (fun c row => row.map (fun x => x + c)) g.cumLogprobs groupLogprobs
    let vocabSize := (groupLogprobs.headD []).length
    let topkIds := topkIndices shifted.flatten (2 * beamWidth)
    (topkIds.map (fun i => i % vocabSize), topkIds.map (fun i => i / vocabSize))

/-- The loop of `_beam_search_sample`: `sample_idx` advances by the
number of parent sequences of each sampling group; `do_sample=False`
groups yield `([], [])` and consume no rows. -/
def beamSearchSampleGo (lps : List (List ℚ)) (sampleIdx : ℕ) :
    List SeqGroupM → List (List ℕ × List ℕ)
  | [] => []
  | g :: rest =>
    if g.doSample then
      beamSearchGroup g ((lps.drop sampleIdx).take g.seqIds.length) ::
        beamSearchSampleGo lps (sampleIdx + g.seqIds.length) rest
    else ([], []) :: beamSearchSampleGo lps sampleIdx rest

/-- `_beam_search_sample`. -/
def beamSearchSample (groups : List SeqGroupM) (lps : List (List ℚ)) : List (List ℕ × List ℕ) :=
  beamSearchSampleGo lps 0 groups

/-- Row offset of group `i` into the beam-search logprob slice: the
parent sequences of the earlier sampling groups. -/
def beamOffset (groups : List SeqGroupM) (i : ℕ) : ℕ :=
  ((groups.take i).map (fun g => if g.doSample then g.seqIds.length else 0)).sum

/-- `_get_ranks`: the rank of each chosen token is one plus the number
of entries of its row that are strictly greater than the chosen entry. -/
def getRanks (x : List (List ℚ)) (indices : List ℕ) : List ℕ :=
  List.zipWith (fun row i => (row.countP (fun v => decide (row.getD i 0 < v))) + 1) x indices

/-- Extended logprob value for the diagnostics maps: `⊥` is `-inf`,
`some ⊤` is the `math.inf` placeholder. -/
abbrev XRat := WithBot (WithTop ℚ)

/-- The `math.inf` placeholder value. -/
def xInf : XRat := ((⊤ : WithTop ℚ) : XRat)

/-- The `Logprob` record attached to a token id (the decoded-token field
is irrelevant to the sampler). -/
structure LogprobM where
  logprob : XRat
  rank : Option ℕ := none
deriving DecidableEq

/-- Python `dict.update` on association lists: existing keys are
overwritten in place, new keys are appended in order. -/
def dictUpdate (base upd : List (ℕ × LogprobM)) : List (ℕ × LogprobM) :=
  base.map (fun kv =>
    match upd.lookup kv.1 with
    | some v => (kv.1, v)
    | none => kv) ++ upd.filter (fun kv => (base.lookup kv.1).isNone)

/-- `_get_sampled_logprob_if_needed`: for a sampling group, either the
`Logprob(inf)` placeholder per sampled token (no logprobs requested and
no beam search), or the real logprob-and-rank maps with the requested
top-k neighbors; returns the advanced tensor cursors. -/
def getSampledLogprobIfNeeded (g : SeqGroupM) (sampleResult : List ℕ × List ℕ)
    (selectedLogprobs : List XRat) (ranks : List ℕ)
    (topTokenIds : List (List ℕ)) (topLogprobs : List (List XRat))
    (selIdx topIdx : ℕ) :
    List (List (ℕ × LogprobM)) × ℕ × ℕ :=
  let numLogprobs := g.samplingParams.logprobs
  let nextTokenIds := sampleResult.1
  let parentSeqIds := sampleResult.2
  if g.doSample then
    let sampledLogprobs :=
      if numLogprobs = none ∧ !g.samplingParams.useBeamSearch then
        nextTokenIds.map (fun t => [(t, ({ logprob := xInf } : LogprobM))])
      else
        (nextTokenIds.zip parentSeqIds).enum.map (fun p =>
          let idx := p.1
          let tok := p.2.1
          let parentId := p.2.2
          let base := [(tok, ({ logprob := selectedLogprobs.getD (selIdx + idx) xInf,
                                rank := some (ranks.getD (selIdx + idx) 0) } : LogprobM))]
          match numLogprobs with
          | some n =>
            if 0 < n then
              let topIds := (topTokenIds.getD (topIdx + parentId) []).take n
              let topPs := (topLogprobs.getD (topIdx + parentId) []).take n
              let tops := List.zipWith
                (fun kv r => (kv.1, ({ logprob := kv.2, rank := some r } : LogprobM)))
                (topIds.zip topPs) (List.range' 1 n)
              dictUpdate base tops
            else base
          | none => base)
    (sampledLogprobs, topIdx + g.seqIds.length, selIdx + nextTokenIds.length)
  else ([], topIdx, selIdx)

/-- The sampler state that survives across calls: the cached parameter
tensors and the `do_*` flags stored by `_init_sampling_tensors`. -/
structure SamplerStateM where
  samplingTensors : SamplingTensorsM
  flags : PipelineFlags
deriving DecidableEq

/-- `Sampler._init_sampling_tensors`: rebuild the tensors and flags from
the current batch via the parameter-tensor builder `build`
(`SamplingTensors.from_sampling_metadata`, kept abstract). -/
def initSamplingTensors (build : List SeqGroupM → SamplingTensorsM × PipelineFlags)
    (groups : List SeqGroupM) : SamplerStateM :=
  { samplingTensors := (build groups).1, flags := (build groups).2 }

/-- The tensor-preparation step at the top of `Sampler.forward`: rebuild
unless the caller's reuse flag is set, and rebuild anyway when the
stored flags say penalties are active (the tensors then depend on the
growing output-token history). -/
def prepareSamplingTensors (build : List SeqGroupM → SamplingTensorsM × PipelineFlags)
    (st : SamplerStateM) (reuseSamplingTensors : Bool) (groups : List SeqGroupM) :
    SamplerStateM :=
  if !reuseSamplingTensors then initSamplingTensors build groups
  else if st.flags.doPenalties then initSamplingTensors build groups
  else st

/-- Modelled from the spec: the materialization of a per-request
temperature by the parameter-tensor builder
(`SamplingTensors.from_sampling_metadata`, not part of the sources here).
Per the spec, "temperature 0 is reserved for greedy and must bypass this
division — division by zero is forbidden": the builder stores the
neutral divisor `1` for such rows, so the unconditional row-wise
division of `Sampler.forward` leaves them unchanged. -/
def materializedTemperature (t : ℚ) : ℚ :=
  if t = 0 then 1 else t

/-- The curvature of the tail-free filter as the spec words it: the
absolute second discrete derivative of the cumulative-probability curve
(normalized and cumulative-summed). -/
def tfsCurvCdfSpec (nm : NumModel) (row : List ELogit) : List ℚ :=
  let probs := softmaxRow nm ((tfsSortedPairs row).map Prod.snd)
  let d2 := (diffL (diffL (cumsum probs))).map abs
  let s := d2.sum
  cumsum (d2.map (fun x => x / s))

/-- The tail-free filter as the spec words it, for comparison with
`applyTfsRow`: the curvature is the absolute second discrete derivative
of the cumulative-probability curve, and the bottom boundary token is
exempted like the top one. -/
def applyTfsRowSpec (nm : NumModel) (tfs : ℚ) (row : List ELogit) : List ELogit :=
  let sortedPairs := tfsSortedPairs row
  let fullMask := false :: (((tfsCurvCdfSpec nm row).map (fun c => decide (tfs < c))) ++ [false])
  let finalSorted := List.zipWith (fun (m : Bool) v => if m then (⊥ : ELogit) else v)
    fullMask (sortedPairs.map Prod.snd)
  unsortGather row.length (sortedPairs.map Prod.fst) finalSorted

/-- Every row of the matrix keeps at least one unmasked entry. -/
def RowsAlive (m : LMat) : Prop :=
  ∀ row ∈ m, ∃ x ∈ row, x ≠ ⊥

/-- All rows have width `v` (the vocabulary size). -/
def RowLens (v : ℕ) (m : LMat) : Prop :=
  ∀ row ∈ m, row.length = v

/-- The concrete scenario of the spec: a group with `min_tokens=3`,
stop-token id 0, a single sequence that has produced one output token so
far, sampling at row 0. -/
def scenarioGroup : SeqGroupM :=
  { seqIds := [0], samplingParams := { minTokens := 3, allStopTokenIds := [0] },
    sampleIndices := [0], doSample := true, outputLens := [1] }

/-- A concrete prompt-phase beam-search group with beam width 1, used to
evaluate the development. -/
def beamGroup : SeqGroupM :=
  { seqIds := [0], isPrompt := true, doSample := true,
    samplingParams := { bestOf := 1, useBeamSearch := true } }

/-- A concrete descending four-token logit row used to evaluate the
tail-free filter. -/
def tfsExampleRow : List ELogit :=
  [((4 : ℚ) : ELogit), ((2 : ℚ) : ELogit), ((1 : ℚ) : ELogit), ((0 : ℚ) : ELogit)]

instance (m : LMat) : Decidable (RowsAlive m) :=
  inferInstanceAs (Decidable (∀ row ∈ m, ∃ x ∈ row, x ≠ ⊥))

instance (v : ℕ) (m : LMat) : Decidable (RowLens v m) :=
  inferInstanceAs (Decidable (∀ row ∈ m, row.length = v))

/-- A group whose stop-token ids cover the whole two-token vocabulary
while the minimum-token count is still unmet. -/
def stopAllGroup : SeqGroupM :=
  { seqIds := [0], samplingParams := { minTokens := 3, allStopTokenIds := [0, 1] },
    sampleIndices := [0], doSample := true, outputLens := [0] }

/-- A group with no minimum-token constraint, used to evaluate the full
pipeline. -/
def plainGroup : SeqGroupM :=
  { seqIds := [0], sampleIndices := [0], doSample := true }

/-- All filter families active. -/
def allFlags : PipelineFlags :=
  { doPenalties := true, doTopPTopK := true, doTopAs := true, doMinP := true,
    doTfss := true, doEtaCutoffs := true, doEpsilonCutoffs := true,
    doTypicalPs := true, doQuadratic := true }

/-- A one-row parameter bundle with every filter parameter in its
validated range. -/
def exampleTensors : SamplingTensorsM :=
  { temperatures := [1], topPs := [1], topKs := [3], topAs := [1], minPs := [1],
    tfss := [1], etaCutoffs := [0], epsilonCutoffs := [0], typicalPs := [1],
    smoothingFactors := [1], smoothingCurves := [1],
    presencePenalties := [0], frequencyPenalties := [0], repetitionPenalties := [1],
    promptTokens := [[0]], outputTokens := [[3]] }

/-! ### Helper lemmas -/

theorem map_getD_range {α : Type} (l : List α) (d : α) :
    (List.range l.length).map (fun i => l.getD i d) = l := by
  apply List.ext_getElem
  · simp
  · intro i h1 h2
    simp only [List.getElem_map, List.getElem_range]
    exact List.getD_eq_getElem l d h2

theorem getD_map_range {α : Type} (n : ℕ) (f : ℕ → α) (d : α) (i : ℕ) (hi : i < n) :
    ((List.range n).map f).getD i d = f i := by
  have h2 : i < ((List.range n).map f).length := by simpa using hi
  rw [List.getD_eq_getElem _ _ h2]
  simp only [List.getElem_map, List.getElem_range]

theorem getD_enum_map {α β : Type} (l : List α) (f : ℕ × α → β) (d : β) (r : ℕ)
    (hr : r < l.length) :
    (l.enum.map f).getD r d = f (r, l[r]) := by
  have h2 : r < (l.enum.map f).length := by simpa using hr
  rw [List.getD_eq_getElem _ _ h2, List.getElem_map]
  congr 1
  exact List.getElem_enum l r _

theorem length_mapRowsP (f : ℕ → List ELogit → List ELogit) (lg : LMat) :
    (mapRowsP f lg).length = lg.length := by
  simp [mapRowsP]

theorem mapRowsP_getD (f : ℕ → List ELogit → List ELogit) (lg : LMat) (r : ℕ)
    (hr : r < lg.length) :
    (mapRowsP f lg).getD r [] = f r (lg.getD r []) := by
  unfold mapRowsP
  exact getD_map_range lg.length _ [] r hr

theorem getD_mem {α : Type} (l : List α) (d : α) (r : ℕ) (hr : r < l.length) :
    l.getD r d ∈ l := by
  rw [List.getD_eq_getElem l d hr]
  exact List.getElem_mem hr

theorem rowsAlive_mapRowsP (f : ℕ → List ELogit → List ELogit) (lg : LMat)
    (h : ∀ r, r < lg.length → (∃ x ∈ lg.getD r [], x ≠ ⊥) → ∃ x ∈ f r (lg.getD r []), x ≠ ⊥)
    (ha : RowsAlive lg) : RowsAlive (mapRowsP f lg) := by
  intro row hrow
  unfold mapRowsP at hrow
  obtain ⟨r, hr, rfl⟩ := List.mem_map.1 hrow
  rw [List.mem_range] at hr
  exact h r hr (ha _ (getD_mem lg [] r hr))

theorem rowLens_mapRowsP (v : ℕ) (f : ℕ → List ELogit → List ELogit) (lg : LMat)
    (h : ∀ r row, (f r row).length = row.length)
    (hl : RowLens v lg) : RowLens v (mapRowsP f lg) := by
  intro row hrow
  unfold mapRowsP at hrow
  obtain ⟨r, hr, rfl⟩ := List.mem_map.1 hrow
  rw [List.mem_range] at hr
  rw [h r _]
  exact hl _ (getD_mem lg [] r hr)

/-! ### Claim theorems -/

/-- C9: the cached sampling-tensor bundle is reused exactly when the
caller's reuse flag is set and the stored flags report no active
penalties; if the flag is unset or penalties are active, the tensors are
rebuilt from the current batch descriptor. -/
theorem c9_tensor_cache_reuse (build : List SeqGroupM → SamplingTensorsM × PipelineFlags)
    (st : SamplerStateM) (reuse : Bool) (groups : List SeqGroupM) :
    prepareSamplingTensors build st reuse groups =
      if reuse = true ∧ st.flags.doPenalties = false then st
      else initSamplingTensors build groups := by
  unfold prepareSamplingTensors
  cases reuse <;> cases h : st.flags.doPenalties <;> simp [h]

/-- C4: a row whose policy temperature is 0 is materialized with the
neutral divisor, so the temperature step leaves it unchanged; the
materialized divisor is never 0; for a nonzero temperature the divisor
is the row's own temperature; and the step divides every logit of a row
by the row's divisor. -/
theorem c4_temperature_zero_bypass :
    (∀ row : List ELogit, applyTemperatureRow (materializedTemperature 0) row = row) ∧
    (∀ t : ℚ, materializedTemperature t ≠ 0) ∧
    (∀ t : ℚ, t ≠ 0 → materializedTemperature t = t) ∧
    (∀ (t : ℚ) (row : List ELogit) (i : ℕ),
      (applyTemperatureRow t row).getD i ⊥ = WithBot.map (fun v => v / t) (row.getD i ⊥)) := by
  refine ⟨?_, ?_, ?_, ?_⟩
  · intro row
    have h0 : materializedTemperature 0 = 1 := by
      unfold materializedTemperature
      norm_num
    rw [h0]
    unfold applyTemperatureRow
    have h : ∀ x ∈ row, WithBot.map (fun v => v / (1 : ℚ)) x = x := by
      intro x _
      cases x with
      | none => rfl
      | some q => simp [WithBot.map]
    rw [List.map_congr_left h]
    exact List.map_id row
  · intro t
    unfold materializedTemperature
    by_cases h : t = 0 <;> simp [h]
  · intro t ht
    unfold materializedTemperature
    simp [ht]
  · intro t row i
    unfold applyTemperatureRow
    rcases lt_or_ge i row.length with h | h
    · have h2 : i < (row.map (WithBot.map (fun v => v / t))).length := by simpa using h
      rw [List.getD_eq_getElem _ _ h2, List.getD_eq_getElem _ _ h, List.getElem_map]
    · have h2 : (row.map (WithBot.map (fun v => v / t))).length ≤ i := by simpa using h
      rw [List.getD_eq_default _ _ h2, List.getD_eq_default _ _ h]
      rfl

/-- C4 witness: at temperature 0 a concrete row passes unchanged, the
divisor is nonzero, and a nonzero temperature divides by itself. -/
theorem c4_witness :
    applyTemperatureRow (materializedTemperature 0) [((3 : ℚ) : ELogit), ⊥] =
        [((3 : ℚ) : ELogit), ⊥] ∧
    materializedTemperature 2 ≠ 0 ∧ materializedTemperature 2 = 2 ∧
    (applyTemperatureRow 2 [((6 : ℚ) : ELogit)]).getD 0 ⊥ =
      WithBot.map (fun v => v / 2) (([((6 : ℚ) : ELogit)]).getD 0 ⊥) :=
  ⟨c4_temperature_zero_bypass.1 _, c4_temperature_zero_bypass.2.1 2,
   c4_temperature_zero_bypass.2.2.1 2 (by decide), c4_temperature_zero_bypass.2.2.2 2 _ 0⟩

/-- C10: for a sampling group with no requested logprobs and no beam
search, every sampled token is mapped to the `Logprob(inf)` placeholder
(positive infinity, no rank), independently of the logprob tensors. -/
theorem c10_dummy_inf_logprob (g : SeqGroupM) (sr : List ℕ × List ℕ)
    (sel : List XRat) (ranks : List ℕ) (tids : List (List ℕ)) (tlps : List (List XRat))
    (si ti : ℕ) (hds : g.doSample = true) (hlp : g.samplingParams.logprobs = none)
    (hbs : g.samplingParams.useBeamSearch = false) :
    (getSampledLogprobIfNeeded g sr sel ranks tids tlps si ti).1 =
      sr.1.map (fun t => [(t, ({ logprob := xInf } : LogprobM))]) := by
  unfold getSampledLogprobIfNeeded
  simp [hds, hlp, hbs]

/-- C10 witness: a concrete sampling group with `logprobs=None` and no
beam search maps its sampled token `5` to the placeholder. -/
theorem c10_witness :
    (getSampledLogprobIfNeeded {} ([5], [0]) [] [] [] [] 0 0).1 =
      [[(5, ({ logprob := xInf } : LogprobM))]] := by
  rw [c10_dummy_inf_logprob {} ([5], [0]) [] [] [] [] 0 0 rfl rfl rfl]
  rfl

/-- C8: the extractor's rank is one plus the number of row entries
strictly greater than the chosen one; a chosen token that attains the
row maximum has rank 1; tied chosen tokens receive the same rank. -/
theorem c8_get_ranks_spec :
    (∀ (x : List (List ℚ)) (indices : List ℕ) (r : ℕ), r < x.length → r < indices.length →
      (getRanks x indices).getD r 0 =
        1 + (x.getD r []).countP (fun v => decide ((x.getD r []).getD (indices.getD r 0) 0 < v))) ∧
    (∀ (row : List ℚ) (i : ℕ), (∀ y ∈ row, y ≤ row.getD i 0) → getRanks [row] [i] = [1]) ∧
    (∀ (row : List ℚ) (i j : ℕ), row.getD i 0 = row.getD j 0 →
      getRanks [row] [i] = getRanks [row] [j]) := by
  refine ⟨?_, ?_, ?_⟩
  · intro x indices r hx hi
    have hlen : r < (getRanks x indices).length := by
      unfold getRanks
      simp [hx, hi]
    rw [List.getD_eq_getElem _ _ hlen]
    unfold getRanks
    rw [List.getElem_zipWith]
    rw [List.getD_eq_getElem x [] hx, List.getD_eq_getElem indices 0 hi]
    exact Nat.add_comm _ 1
  · intro row i h
    unfold getRanks
    simp only [List.zipWith_cons_cons, List.zipWith_nil_right]
    have hc : row.countP (fun v => decide (row.getD i 0 < v)) = 0 := by
      rw [List.countP_eq_zero]
      intro a ha
      simpa using not_lt.2 (h a ha)
    rw [hc]
  · intro row i j h
    unfold getRanks
    simp only [List.zipWith_cons_cons, List.zipWith_nil_right, h]

/-- C8 witness: rank of a chosen token with two strictly greater
entries is 3; a maximal chosen token has rank 1; tied tokens share the
rank. -/
theorem c8_witness :
    (getRanks [[(1 : ℚ), 3, 3, 2]] [3]).getD 0 0 =
        1 + (([(1 : ℚ), 3, 3, 2]).countP (fun v => decide ((2 : ℚ) < v))) ∧
    getRanks [[(1 : ℚ), 3, 3, 2]] [1] = [1] ∧
    getRanks [[(5 : ℚ), 7, 7]] [1] = getRanks [[(5 : ℚ), 7, 7]] [2] :=
  ⟨(c8_get_ranks_spec.1 [[(1 : ℚ), 3, 3, 2]] [3] 0 (by decide) (by decide)).trans (by decide),
   c8_get_ranks_spec.2.1 [(1 : ℚ), 3, 3, 2] 1 (by decide),
   c8_get_ranks_spec.2.2 [(5 : ℚ), 7, 7] 1 2 (by decide)⟩

theorem getD_of_forall_eq (l : List ℚ) (c : ℚ) (h : ∀ x ∈ l, x = c) (r : ℕ) :
    l.getD r c = c := by
  rcases lt_or_ge r l.length with hr | hr
  · rw [List.getD_eq_getElem _ _ hr]
    exact h _ (List.getElem_mem hr)
  · exact List.getD_eq_default _ _ hr

theorem applyPenaltiesRow_neutral (promptToks outToks : List ℕ) (row : List ELogit) :
    applyPenaltiesRow promptToks outToks 0 0 1 row = row := by
  unfold applyPenaltiesRow
  apply List.ext_getElem
  · simp
  · intro i h1 h2
    have hi : i < row.enum.length := by simpa using h2
    rw [List.getElem_map, List.getElem_enum]
    cases hx : row[i] with
    | none => rfl
    | some q =>
      by_cases hmem : i ∈ promptToks ∨ i ∈ outToks <;>
        by_cases hq : 0 < q <;>
          (simp [hmem, hq, WithBot.map, div_one, mul_one, zero_mul, sub_zero]; rfl)

/-- C5 counterexample: with the repetition coefficient literally 0 (and
frequency and presence 0) the penalty stage is not the identity: a
negative logit of a prompt token is multiplied by 0. -/
theorem c5_counterexample :
    applyPenalties
      { repetitionPenalties := [0], frequencyPenalties := [0], presencePenalties := [0],
        promptTokens := [[0]], outputTokens := [[1]] }
      [[((-3 : ℚ) : ELogit)]] ≠ [[((-3 : ℚ) : ELogit)]] := by
  norm_num [applyPenalties, mapRowsP, applyPenaltiesRow, List.enum, List.enumFrom, WithBot.map,
    List.range_succ]

/-- C5 (amended): with every repetition coefficient at its neutral value
1 and every frequency and presence coefficient at 0, the penalty stage
is the identity transform. -/
theorem c5_penalties_neutral_identity (ts : SamplingTensorsM) (lg : LMat)
    (hrep : ∀ r ∈ ts.repetitionPenalties, r = 1)
    (hfreq : ∀ f ∈ ts.frequencyPenalties, f = 0)
    (hpres : ∀ p ∈ ts.presencePenalties, p = 0) :
    applyPenalties ts lg = lg := by
  unfold applyPenalties
  apply List.ext_getElem
  · simp [length_mapRowsP, mapRowsP]
  · intro i h1 h2
    have hlen : i < lg.length := h2
    unfold mapRowsP
    simp only [List.getElem_map, List.getElem_range]
    rw [getD_of_forall_eq _ _ hrep i, getD_of_forall_eq _ _ hfreq i,
      getD_of_forall_eq _ _ hpres i]
    rw [applyPenaltiesRow_neutral]
    exact (List.getD_eq_getElem lg [] hlen).symm ▸ rfl

/-- C5 witness: the neutral coefficients leave a concrete two-token row
unchanged. -/
theorem c5_witness :
    applyPenalties
      { repetitionPenalties := [1], frequencyPenalties := [0], presencePenalties := [0],
        promptTokens := [[0]], outputTokens := [[0]] }
      [[((-3 : ℚ) : ELogit), ((2 : ℚ) : ELogit)]] =
      [[((-3 : ℚ) : ELogit), ((2 : ℚ) : ELogit)]] :=
  c5_penalties_neutral_identity _ _ (by decide) (by decide) (by decide)

/-- C1: the logit section of `forward` is exactly the fixed composition
min-token gate, penalties, temperature, top-k/top-p, top-a, min-p,
tail-free, eta cutoff, epsilon cutoff, typical sampling, quadratic
transform (the gate comes before everything else); and in the concrete
scenario (min_tokens=3, stop-token id 0, output length 1) the gate sets
the logit at index 0 of the group's row to `-inf` before any other
transform runs. -/
theorem c1_pipeline_order_and_gate :
    (∀ (nm : NumModel) (fl : PipelineFlags) (ts : SamplingTensorsM)
        (groups : List SeqGroupM) (lg : LMat),
      forwardLogits nm fl ts groups lg =
        pipelineAfterGate nm fl ts (applyMinTokensPenalty groups lg)) ∧
    (∀ lg : LMat, 0 < lg.length → 0 < (lg.getD 0 []).length →
      ((applyMinTokensPenalty [scenarioGroup] lg).getD 0 []).getD 0 ⊥ = ⊥) := by
  constructor
  · intro nm fl ts groups lg
    rfl
  · intro lg h0 h1
    have hp : penalizedPairs [scenarioGroup] = [(0, 0)] := rfl
    unfold applyMinTokensPenalty
    rw [hp]
    simp only [List.foldl_cons, List.foldl_nil]
    unfold updRow
    have hset : (lg.set 0 ((lg.getD 0 []).set 0 ⊥)).getD 0 [] = (lg.getD 0 []).set 0 ⊥ := by
      have hb : (0 : ℕ) < (lg.set 0 ((lg.getD 0 []).set 0 ⊥)).length := by simpa using h0
      rw [List.getD_eq_getElem _ _ hb]
      exact List.getElem_set_self hb
    rw [hset]
    have hb2 : (0 : ℕ) < ((lg.getD 0 []).set 0 ⊥).length := by simpa using h1
    rw [List.getD_eq_getElem _ _ hb2]
    exact List.getElem_set_self hb2

/-- C1 witness: the scenario evaluated on the concrete one-row logits
matrix `[[5, 2]]`. -/
theorem c1_witness :
    ((applyMinTokensPenalty [scenarioGroup] [[((5 : ℚ) : ELogit), ((2 : ℚ) : ELogit)]]).getD
        0 []).getD 0 ⊥ = ⊥ :=
  c1_pipeline_order_and_gate.2 [[((5 : ℚ) : ELogit), ((2 : ℚ) : ELogit)]]
    (by decide) (by decide)

/-- C6: with the on-device tensors requested, after greedy sampling
every greedily-sampled row of the probability tensor becomes the one-hot
vector of its arg-max token (1 there, 0 everywhere else), other rows are
untouched, and the log-probability tensor is returned unmodified. -/
theorem c6_greedy_probs_one_hot (probs logprobs : List (List ℚ)) (idxs : List ℕ) :
    (greedyStep probs logprobs idxs true).2.1 = logprobs ∧
    (∀ r, r ∈ idxs → r < probs.length →
      argmaxList (logprobs.getD r []) < (probs.getD r []).length →
      ∀ v, v < (probs.getD r []).length →
        (((greedyStep probs logprobs idxs true).1.getD r []).getD v 0 =
          if v = argmaxList (logprobs.getD r []) then 1 else 0)) ∧
    (∀ r, r ∉ idxs → r < probs.length →
      (greedyStep probs logprobs idxs true).1.getD r [] = probs.getD r []) := by
  have hfst : (greedyStep probs logprobs idxs true).1 =
      modifyGreedyProbsInplace probs idxs
        (idxs.map (fun r => argmaxList (logprobs.getD r []))) := rfl
  refine ⟨rfl, ?_, ?_⟩
  · intro r hmem hr hg v hv
    rw [hfst]
    unfold modifyGreedyProbsInplace
    have hzlen : (probs.enum.map (fun p =>
        if p.1 ∈ idxs then p.2.map (fun _ => (0 : ℚ)) else p.2)).length = probs.length := by
      simp
    have hr2 : r < (probs.enum.map (fun p =>
        if p.1 ∈ idxs then p.2.map (fun _ => (0 : ℚ)) else p.2)).length := by
      rw [hzlen]; exact hr
    rw [getD_enum_map _ _ [] r hr2]
    simp only [hmem, if_pos]
    have hz : (probs.enum.map (fun p =>
        if p.1 ∈ idxs then p.2.map (fun _ => (0 : ℚ)) else p.2))[r] =
        (probs.getD r []).map (fun _ => (0 : ℚ)) := by
      rw [List.getElem_map, List.getElem_enum]
      simp only [hmem, if_pos]
      rw [List.getD_eq_getElem probs [] hr]
    rw [hz]
    have hidx : idxs.indexOf r < idxs.length := List.indexOf_lt_length.2 hmem
    have hgs : (idxs.map (fun i => argmaxList (logprobs.getD i []))).getD (idxs.indexOf r) 0 =
        argmaxList (logprobs.getD r []) := by
      have hb : idxs.indexOf r < (idxs.map (fun i => argmaxList (logprobs.getD i []))).length := by
        simpa using hidx
      rw [List.getD_eq_getElem _ _ hb, List.getElem_map, List.getElem_indexOf hidx]
    rw [hgs]
    by_cases hveq : v = argmaxList (logprobs.getD r [])
    · rw [if_pos hveq, hveq]
      have hb : argmaxList (logprobs.getD r []) <
          (((probs.getD r []).map (fun _ => (0 : ℚ))).set
            (argmaxList (logprobs.getD r [])) 1).length := by
        simpa using hg
      rw [List.getD_eq_getElem _ _ hb]
      exact List.getElem_set_self hb
    · have hb : v < (((probs.getD r []).map (fun _ => (0 : ℚ))).set
          (argmaxList (logprobs.getD r [])) 1).length := by
        simpa using hv
      rw [List.getD_eq_getElem _ _ hb, if_neg hveq]
      rw [List.getElem_set_ne (fun h => hveq (by omega)) hb]
      simp
  · intro r hmem hr
    rw [hfst]
    unfold modifyGreedyProbsInplace
    have hr2 : r < (probs.enum.map (fun p =>
        if p.1 ∈ idxs then p.2.map (fun _ => (0 : ℚ)) else p.2)).length := by
      simpa using hr
    rw [getD_enum_map _ _ [] r hr2]
    simp only [hmem, if_neg, if_false]
    rw [List.getElem_map, List.getElem_enum]
    simp only [hmem, if_false]
    rw [List.getD_eq_getElem probs [] hr]

/-- C6 witness: a concrete greedy row `[1/1, 4/1, 2/1]`-scored batch has
its probability row pinned to the one-hot of token 1 while the logprob
tensor is unchanged. -/
theorem c6_witness :
    (greedyStep [[(2 : ℚ), 3, 5]] [[(1 : ℚ), 4, 2]] [0] true).2.1 = [[(1 : ℚ), 4, 2]] ∧
    (((greedyStep [[(2 : ℚ), 3, 5]] [[(1 : ℚ), 4, 2]] [0] true).1.getD 0 []).getD 0 0 = 0 ∧
     ((greedyStep [[(2 : ℚ), 3, 5]] [[(1 : ℚ), 4, 2]] [0] true).1.getD 0 []).getD 1 0 = 1 ∧
     ((greedyStep [[(2 : ℚ), 3, 5]] [[(1 : ℚ), 4, 2]] [0] true).1.getD 0 []).getD 2 0 = 0) := by
  have h := c6_greedy_probs_one_hot [[(2 : ℚ), 3, 5]] [[(1 : ℚ), 4, 2]] [0]
  refine ⟨h.1, ?_, ?_, ?_⟩
  · rw [h.2.1 0 (by decide) (by decide) (by decide) 0 (by decide)]
    decide
  · rw [h.2.1 0 (by decide) (by decide) (by decide) 1 (by decide)]
    decide
  · rw [h.2.1 0 (by decide) (by decide) (by decide) 2 (by decide)]
    decide

theorem sortPairs_map_fst_perm {β : Type} [LinearOrder β] (r : ℕ × β → ℕ × β → Prop)
    [DecidableRel r] (l : List β) :
    ((l.enum.insertionSort r).map Prod.fst).Perm (List.range l.length) := by
  have h := (List.perm_insertionSort r l.enum).map Prod.fst
  rwa [List.enum_map_fst] at h

theorem topkIndices_length (row : List ℚ) (k : ℕ) (hk : k ≤ row.length) :
    (topkIndices row k).length = k := by
  unfold topkIndices
  simp only [List.length_map, List.length_take, List.length_insertionSort, List.enum_length]
  omega

theorem topkIndices_nodup (row : List ℚ) (k : ℕ) : (topkIndices row k).Nodup := by
  unfold topkIndices
  have hnd : ((row.enum.insertionSort pairGE).map Prod.fst).Nodup :=
    (sortPairs_map_fst_perm pairGE row).nodup_iff.2 (List.nodup_range _)
  exact ((List.take_sublist k _).map Prod.fst).nodup hnd

theorem topkIndices_lt (row : List ℚ) (k : ℕ) : ∀ a ∈ topkIndices row k, a < row.length := by
  intro a ha
  unfold topkIndices at ha
  have hmem : a ∈ (row.enum.insertionSort pairGE).map Prod.fst :=
    ((List.take_sublist k _).map Prod.fst).subset ha
  rw [(sortPairs_map_fst_perm pairGE row).mem_iff, List.mem_range] at hmem
  exact hmem

theorem topkIndices_topset (row : List ℚ) (k : ℕ) :
    ∀ a ∈ topkIndices row k, ∀ j, j < row.length → j ∉ topkIndices row k →
      row.getD j 0 ≤ row.getD a 0 := by
  intro a ha j hj hjn
  have hja : a < row.length := topkIndices_lt row k a ha
  unfold topkIndices at ha hjn
  obtain ⟨pa, hpa, hpa1⟩ := List.mem_map.1 ha
  subst hpa1
  have hje : j < row.enum.length := by simpa using hj
  have hpj : (j, row[j]) ∈ row.enum := by
    have := List.getElem_enum row j hje
    rw [← this]
    exact List.getElem_mem hje
  have hpjs : (j, row[j]) ∈ row.enum.insertionSort pairGE :=
    (List.perm_insertionSort pairGE row.enum).symm.subset hpj
  rw [← List.take_append_drop k (row.enum.insertionSort pairGE), List.mem_append] at hpjs
  rcases hpjs with hpjt | hpjd
  · exfalso
    exact hjn (List.mem_map.2 ⟨(j, row[j]), hpjt, rfl⟩)
  · have hsorted : List.Sorted pairGE (row.enum.insertionSort pairGE) :=
      List.sorted_insertionSort pairGE row.enum
    have hrel : pairGE pa (j, row[j]) :=
      hsorted.rel_of_mem_take_of_mem_drop hpa hpjd
    have hpa2 : row[pa.1]? = some pa.2 :=
      List.mem_enum_iff_getElem?.mp
        ((List.perm_insertionSort pairGE row.enum).subset ((List.take_sublist k _).subset hpa))
    have hval : row[pa.1] = pa.2 := by
      rw [List.getElem?_eq_getElem hja] at hpa2
      exact Option.some_inj.mp hpa2
    have hle : row[j] ≤ pa.2 := by
      rcases hrel with h | ⟨h, _⟩
      · exact le_of_lt h
      · exact le_of_eq h.symm
    rw [List.getD_eq_getElem row 0 hj, List.getD_eq_getElem row 0 hja, hval]
    exact hle

theorem getD_drop_take (lps : List (List ℚ)) (off m : ℕ) (hm : 1 ≤ m) :
    ((lps.drop off).take m).getD 0 [] = lps.getD off [] := by
  rcases lt_or_ge off lps.length with h | h
  · have hd : (lps.drop off).length = lps.length - off := by simp
    have hlen : 0 < ((lps.drop off).take m).length := by
      simp only [List.length_take, hd]
      omega
    rw [List.getD_eq_getElem _ _ hlen, List.getD_eq_getElem _ _ h]
    rw [List.getElem_take, List.getElem_drop]
    norm_num
  · rw [List.getD_eq_default _ _ h, List.getD_eq_default]
    simp only [List.length_take, List.length_drop]
    omega

theorem beamSearchSampleGo_getD (lps : List (List ℚ)) (groups : List SeqGroupM) :
    ∀ (s i : ℕ) (hi : i < groups.length),
      (beamSearchSampleGo lps s groups).getD i ([], []) =
        if groups[i].doSample then
          beamSearchGroup groups[i]
            ((lps.drop (s + beamOffset groups i)).take groups[i].seqIds.length)
        else ([], []) := by
  induction groups with
  | nil =>
    intro s i hi
    simp at hi
  | cons g rest ih =>
    intro s i hi
    cases i with
    | zero =>
      have hoff : beamOffset (g :: rest) 0 = 0 := rfl
      unfold beamSearchSampleGo
      by_cases hds : g.doSample <;> simp [hds, hoff]
    | succ i =>
      have hoff : beamOffset (g :: rest) (i + 1) =
          (if g.doSample then g.seqIds.length else 0) + beamOffset rest i := by
        unfold beamOffset
        rw [List.take_succ_cons]
        simp
      have hi2 : i < rest.length := by simpa using hi
      unfold beamSearchSampleGo
      by_cases hds : g.doSample = true
      · simp only [hds, if_true]
        rw [List.getD_cons_succ, ih (s + g.seqIds.length) i hi2, hoff]
        simp only [hds, if_true, List.getElem_cons_succ]
        rw [Nat.add_assoc]
      · rw [Bool.not_eq_true] at hds
        simp only [hds, Bool.false_eq_true, if_false]
        rw [List.getD_cons_succ, ih s i hi2, hoff]
        simp only [hds, Bool.false_eq_true, if_false, List.getElem_cons_succ, Nat.zero_add]

/-- C7: a prompt-phase beam-search group with a single parent sequence
and beam width B yields exactly 2B candidate token ids, the indices of
the 2B largest entries of its logprob row, each paired with parent id 0. -/
theorem c7_beam_prompt_expansion (groups : List SeqGroupM) (lps : List (List ℚ)) (i : ℕ)
    (hi : i < groups.length) (hds : groups[i].doSample = true)
    (hp : groups[i].isPrompt = true) (h1 : groups[i].seqIds.length = 1)
    (hbw : 2 * groups[i].samplingParams.bestOf ≤ (lps.getD (beamOffset groups i) []).length) :
    ((beamSearchSample groups lps).getD i ([], [])).2 =
        List.replicate (2 * groups[i].samplingParams.bestOf) 0 ∧
    ((beamSearchSample groups lps).getD i ([], [])).1 =
        topkIndices (lps.getD (beamOffset groups i) []) (2 * groups[i].samplingParams.bestOf) ∧
    ((beamSearchSample groups lps).getD i ([], [])).1.length =
        2 * groups[i].samplingParams.bestOf ∧
    ((beamSearchSample groups lps).getD i ([], [])).1.Nodup ∧
    (∀ a ∈ ((beamSearchSample groups lps).getD i ([], [])).1,
        a < (lps.getD (beamOffset groups i) []).length) ∧
    (∀ a ∈ ((beamSearchSample groups lps).getD i ([], [])).1,
      ∀ j, j < (lps.getD (beamOffset groups i) []).length →
        j ∉ ((beamSearchSample groups lps).getD i ([], [])).1 →
        (lps.getD (beamOffset groups i) []).getD j 0 ≤
          (lps.getD (beamOffset groups i) []).getD a 0) := by
  have hres : (beamSearchSample groups lps).getD i ([], []) =
      (topkIndices (lps.getD (beamOffset groups i) []) (2 * groups[i].samplingParams.bestOf),
       List.replicate (2 * groups[i].samplingParams.bestOf) 0) := by
    unfold beamSearchSample
    rw [beamSearchSampleGo_getD lps groups 0 i hi]
    rw [if_pos hds]
    unfold beamSearchGroup
    rw [if_pos hp, h1, Nat.zero_add]
    rw [getD_drop_take lps (beamOffset groups i) 1 le_rfl]
  rw [hres]
  refine ⟨rfl, rfl, ?_, ?_, ?_, ?_⟩
  · exact topkIndices_length _ _ hbw
  · exact topkIndices_nodup _ _
  · exact topkIndices_lt _ _
  · exact topkIndices_topset _ _

/-- C7 witness: a concrete prompt-phase beam group with `best_of = 1`
over the row `[1, 3, 2]` returns the top-2 tokens `[1, 2]` with parent
ids `[0, 0]`. -/
theorem c7_witness :
    (beamSearchSample [beamGroup] [[(1 : ℚ), 3, 2]]).getD 0 ([], []) = ([1, 2], [0, 0]) := by
  have h := c7_beam_prompt_expansion [beamGroup] [[(1 : ℚ), 3, 2]] 0
    (by decide) (by decide) (by decide) (by decide) (by decide)
  rw [Prod.ext_iff]
  constructor
  · rw [h.2.1]
    decide
  · rw [h.1]
    decide

theorem length_cumsumGo (acc : ℚ) (l : List ℚ) : (cumsumGo acc l).length = l.length := by
  induction l generalizing acc with
  | nil => rfl
  | cons x xs ih =>
    unfold cumsumGo
    simp [ih]

theorem length_cumsum (l : List ℚ) : (cumsum l).length = l.length :=
  length_cumsumGo 0 l

theorem length_diffL (l : List ℚ) : (diffL l).length = l.length - 1 := by
  match l with
  | [] => rfl
  | [x] => rfl
  | x :: y :: rest =>
    have ih := length_diffL (y :: rest)
    unfold diffL
    simp only [List.length_cons] at ih ⊢
    omega

theorem length_softmaxRow (nm : NumModel) (row : List ELogit) :
    (softmaxRow nm row).length = row.length := by
  unfold softmaxRow
  simp

theorem length_tfsSortedVals (row : List ELogit) :
    ((tfsSortedPairs row).map Prod.snd).length = row.length := by
  unfold tfsSortedPairs
  simp

theorem length_tfsCurvCdf (nm : NumModel) (row : List ELogit) :
    (tfsCurvCdf nm row).length = row.length - 2 := by
  unfold tfsCurvCdf
  rw [length_cumsum, List.length_map, List.length_map, length_diffL, length_diffL,
    length_softmaxRow, length_tfsSortedVals]
  omega

theorem length_tfsCurvCdfSpec (nm : NumModel) (row : List ELogit) :
    (tfsCurvCdfSpec nm row).length = row.length - 2 := by
  unfold tfsCurvCdfSpec
  rw [length_cumsum, List.length_map, List.length_map, length_diffL, length_diffL,
    length_cumsum, length_softmaxRow, length_tfsSortedVals]
  omega

theorem getD_boundary_mask (mid : List Bool) (lastB : Bool) (pos : ℕ)
    (hpos : pos < mid.length + 2) :
    (false :: (mid ++ [lastB])).getD pos false =
      if pos = 0 then false
      else if pos = mid.length + 1 then lastB
      else mid.getD (pos - 1) false := by
  cases pos with
  | zero => rfl
  | succ p =>
    rw [List.getD_cons_succ]
    simp only [Nat.succ_ne_zero, if_false, Nat.add_left_cancel_iff]
    rcases eq_or_lt_of_le (Nat.lt_succ_iff.mp (by omega : p < mid.length + 1)) with he | hlt
    · rw [if_pos (by omega)]
      have hb : p < (mid ++ [lastB]).length := by simp; omega
      rw [List.getD_eq_getElem _ _ hb]
      rw [List.getElem_append_right (by omega)]
      simp [he]
    · rw [if_neg (by omega)]
      have hb : p < (mid ++ [lastB]).length := by simp; omega
      rw [List.getD_eq_getElem _ _ hb]
      rw [List.getElem_append_left hlt]
      rw [Nat.add_sub_cancel, List.getD_eq_getElem _ _ hlt]

theorem unsortGather_getD (n : ℕ) (idxList : List ℕ) (final : List ELogit) (i : ℕ)
    (hi : i < n) :
    (unsortGather n idxList final).getD i ⊥ = final.getD (idxList.indexOf i) ⊥ := by
  unfold unsortGather
  exact getD_map_range n _ ⊥ i hi

theorem tfs_indexOf_lt (row : List ELogit) (i : ℕ) (hi : i < row.length) :
    ((tfsSortedPairs row).map Prod.fst).indexOf i < row.length := by
  have hperm : (((tfsSortedPairs row).map Prod.fst)).Perm (List.range row.length) := by
    unfold tfsSortedPairs
    exact sortPairs_map_fst_perm pairGE row
  have hmem : i ∈ (tfsSortedPairs row).map Prod.fst := by
    rw [hperm.mem_iff, List.mem_range]
    exact hi
  have h := List.indexOf_lt_length.2 hmem
  rwa [List.length_map, (by unfold tfsSortedPairs; simp :
    (tfsSortedPairs row).length = row.length)] at h

theorem tfs_sortedVals_getD (row : List ELogit) (i : ℕ) (hi : i < row.length) :
    ((tfsSortedPairs row).map Prod.snd).getD
        (((tfsSortedPairs row).map Prod.fst).indexOf i) ⊥ = row.getD i ⊥ := by
  have hlen : (tfsSortedPairs row).length = row.length := by
    unfold tfsSortedPairs
    simp
  have hperm : (((tfsSortedPairs row).map Prod.fst)).Perm (List.range row.length) := by
    unfold tfsSortedPairs
    exact sortPairs_map_fst_perm pairGE row
  have hmem : i ∈ (tfsSortedPairs row).map Prod.fst := by
    rw [hperm.mem_iff, List.mem_range]
    exact hi
  have hpos : ((tfsSortedPairs row).map Prod.fst).indexOf i <
      ((tfsSortedPairs row).map Prod.fst).length :=
    List.indexOf_lt_length.2 hmem
  have hpos2 : ((tfsSortedPairs row).map Prod.fst).indexOf i < (tfsSortedPairs row).length := by
    rwa [List.length_map] at hpos
  have hfst : (tfsSortedPairs row)[((tfsSortedPairs row).map Prod.fst).indexOf i].1 = i := by
    have := List.getElem_indexOf hpos
    rwa [List.getElem_map] at this
  have hpair : (tfsSortedPairs row)[((tfsSortedPairs row).map Prod.fst).indexOf i] ∈ row.enum := by
    apply (List.perm_insertionSort pairGE row.enum).subset
    exact List.getElem_mem hpos2
  have hsnd : row[i]? =
      some ((tfsSortedPairs row)[((tfsSortedPairs row).map Prod.fst).indexOf i]).2 := by
    have := List.mem_enum_iff_getElem?.mp hpair
    rwa [hfst] at this
  have hb : ((tfsSortedPairs row).map Prod.fst).indexOf i <
      ((tfsSortedPairs row).map Prod.snd).length := by
    rwa [List.length_map]
  rw [List.getD_eq_getElem _ _ hb, List.getElem_map, List.getD_eq_getElem _ _ hi]
  rw [List.getElem?_eq_getElem hi] at hsnd
  exact (Option.some_inj.mp hsnd).symm

theorem tfsMasked_unsort_getD (row : List ELogit) (mask : List Bool) (i : ℕ)
    (hi : i < row.length) (hm : mask.length = row.length) :
    (unsortGather row.length ((tfsSortedPairs row).map Prod.fst)
        (List.zipWith (fun (m : Bool) v => if m then (⊥ : ELogit) else v) mask
          ((tfsSortedPairs row).map Prod.snd))).getD i ⊥ =
      if mask.getD (((tfsSortedPairs row).map Prod.fst).indexOf i) false then ⊥
      else row.getD i ⊥ := by
  rw [unsortGather_getD _ _ _ i hi]
  have hposlt : ((tfsSortedPairs row).map Prod.fst).indexOf i < row.length :=
    tfs_indexOf_lt row i hi
  have hvlen : ((tfsSortedPairs row).map Prod.snd).length = row.length :=
    length_tfsSortedVals row
  have hzlen : (List.zipWith (fun (m : Bool) v => if m then (⊥ : ELogit) else v) mask
      ((tfsSortedPairs row).map Prod.snd)).length = row.length := by
    rw [List.length_zipWith, hm, hvlen, Nat.min_self]
  have hb : ((tfsSortedPairs row).map Prod.fst).indexOf i <
      (List.zipWith (fun (m : Bool) v => if m then (⊥ : ELogit) else v) mask
        ((tfsSortedPairs row).map Prod.snd)).length := by
    rw [hzlen]; exact hposlt
  rw [List.getD_eq_getElem _ _ hb, List.getElem_zipWith]
  have hmb : ((tfsSortedPairs row).map Prod.fst).indexOf i < mask.length := by
    rw [hm]
    exact hposlt
  have hvb : ((tfsSortedPairs row).map Prod.fst).indexOf i <
      ((tfsSortedPairs row).map Prod.snd).length := by
    rw [hvlen]
    exact hposlt
  have hmg : mask[((tfsSortedPairs row).map Prod.fst).indexOf i] =
      mask.getD (((tfsSortedPairs row).map Prod.fst).indexOf i) false :=
    (List.getD_eq_getElem mask false hmb).symm
  rw [hmg]
  have hvg : ((tfsSortedPairs row).map Prod.snd)[((tfsSortedPairs row).map Prod.fst).indexOf
        i] = row.getD i ⊥ := by
    have h2 := tfs_sortedVals_getD row i hi
    rwa [List.getD_eq_getElem _ _ hvb] at h2
  rw [hvg]

theorem applyTfsRow_getD_char (nm : NumModel) (thr : ℚ) (row : List ELogit) (i : ℕ)
    (hn : 2 ≤ row.length) (hi : i < row.length) :
    (applyTfsRow nm thr row).getD i ⊥ =
      if ((tfsSortedPairs row).map Prod.fst).indexOf i = 0 then row.getD i ⊥
      else if ((tfsSortedPairs row).map Prod.fst).indexOf i = row.length - 1 then ⊥
      else if thr < (tfsCurvCdf nm row).getD
          (((tfsSortedPairs row).map Prod.fst).indexOf i - 1) 0 then ⊥
      else row.getD i ⊥ := by
  have hcl : ((tfsCurvCdf nm row).map (fun c => decide (thr < c))).length = row.length - 2 := by
    rw [List.length_map, length_tfsCurvCdf]
  have hmlen : (tfsFullMask nm thr row).length = row.length := by
    unfold tfsFullMask
    rw [List.length_cons, List.length_append, hcl]
    simp
    omega
  have hL : (applyTfsRow nm thr row).getD i ⊥ =
      if (tfsFullMask nm thr row).getD (((tfsSortedPairs row).map Prod.fst).indexOf i) false
        then ⊥ else row.getD i ⊥ :=
    tfsMasked_unsort_getD row (tfsFullMask nm thr row) i hi hmlen
  rw [hL]
  have hposlt : ((tfsSortedPairs row).map Prod.fst).indexOf i < row.length :=
    tfs_indexOf_lt row i hi
  have hbm : (tfsFullMask nm thr row).getD
      (((tfsSortedPairs row).map Prod.fst).indexOf i) false =
      if ((tfsSortedPairs row).map Prod.fst).indexOf i = 0 then false
      else if ((tfsSortedPairs row).map Prod.fst).indexOf i =
          ((tfsCurvCdf nm row).map (fun c => decide (thr < c))).length + 1 then true
      else ((tfsCurvCdf nm row).map (fun c => decide (thr < c))).getD
        (((tfsSortedPairs row).map Prod.fst).indexOf i - 1) false := by
    unfold tfsFullMask
    exact getD_boundary_mask _ true _ (by rw [hcl]; omega)
  rw [hbm]
  by_cases h0 : ((tfsSortedPairs row).map Prod.fst).indexOf i = 0
  · simp [h0]
  · by_cases hlast : ((tfsSortedPairs row).map Prod.fst).indexOf i = row.length - 1
    · have hml : ((tfsSortedPairs row).map Prod.fst).indexOf i =
          ((tfsCurvCdf nm row).map (fun c => decide (thr < c))).length + 1 := by
        rw [hcl]
        omega
      have hne : row.length - 1 ≠ 0 := by omega
      have heq2 : row.length = (tfsCurvCdf nm row).length + 2 := by
        rw [length_tfsCurvCdf]
        omega
      simp [h0, hlast, hml, hne, heq2]
    · have hml : ((tfsSortedPairs row).map Prod.fst).indexOf i ≠
          ((tfsCurvCdf nm row).map (fun c => decide (thr < c))).length + 1 := by
        rw [hcl]
        omega
      have hmidb : ((tfsSortedPairs row).map Prod.fst).indexOf i - 1 <
          (tfsCurvCdf nm row).length := by
        rw [length_tfsCurvCdf]
        omega
      have hmg : ((tfsCurvCdf nm row).map (fun c => decide (thr < c))).getD
          (((tfsSortedPairs row).map Prod.fst).indexOf i - 1) false =
          decide (thr < (tfsCurvCdf nm row).getD
            (((tfsSortedPairs row).map Prod.fst).indexOf i - 1) 0) := by
        rw [List.getD_eq_getElem _ _ (by rw [List.length_map]; exact hmidb), List.getElem_map]
        rw [List.getD_eq_getElem _ _ hmidb]
      rw [if_neg h0, if_neg hml, hmg, if_neg h0, if_neg hlast]
      by_cases hc : thr < (tfsCurvCdf nm row).getD
          (((tfsSortedPairs row).map Prod.fst).indexOf i - 1) 0 <;> simp [hc]

theorem applyTfsRowSpec_getD_char (nm : NumModel) (thr : ℚ) (row : List ELogit) (i : ℕ)
    (hn : 2 ≤ row.length) (hi : i < row.length) :
    (applyTfsRowSpec nm thr row).getD i ⊥ =
      if ((tfsSortedPairs row).map Prod.fst).indexOf i = 0 then row.getD i ⊥
      else if ((tfsSortedPairs row).map Prod.fst).indexOf i = row.length - 1 then row.getD i ⊥
      else if thr < (tfsCurvCdfSpec nm row).getD
          (((tfsSortedPairs row).map Prod.fst).indexOf i - 1) 0 then ⊥
      else row.getD i ⊥ := by
  have hcl : ((tfsCurvCdfSpec nm row).map (fun c => decide (thr < c))).length =
      row.length - 2 := by
    rw [List.length_map, length_tfsCurvCdfSpec]
  have hmlen : (false :: (((tfsCurvCdfSpec nm row).map (fun c => decide (thr < c))) ++
      [false])).length = row.length := by
    rw [List.length_cons, List.length_append, hcl]
    simp
    omega
  have hL : (applyTfsRowSpec nm thr row).getD i ⊥ =
      if (false :: (((tfsCurvCdfSpec nm row).map (fun c => decide (thr < c))) ++
          [false])).getD (((tfsSortedPairs row).map Prod.fst).indexOf i) false
        then ⊥ else row.getD i ⊥ :=
    tfsMasked_unsort_getD row _ i hi hmlen
  rw [hL]
  have hposlt : ((tfsSortedPairs row).map Prod.fst).indexOf i < row.length :=
    tfs_indexOf_lt row i hi
  rw [getD_boundary_mask _ false _ (by rw [hcl]; omega)]
  by_cases h0 : ((tfsSortedPairs row).map Prod.fst).indexOf i = 0
  · simp [h0]
  · by_cases hlast : ((tfsSortedPairs row).map Prod.fst).indexOf i = row.length - 1
    · have hml : ((tfsSortedPairs row).map Prod.fst).indexOf i =
          ((tfsCurvCdfSpec nm row).map (fun c => decide (thr < c))).length + 1 := by
        rw [hcl]
        omega
      have hne : row.length - 1 ≠ 0 := by omega
      have heq2 : row.length = (tfsCurvCdfSpec nm row).length + 2 := by
        rw [length_tfsCurvCdfSpec]
        omega
      simp [h0, hlast, hml, hne, heq2]
    · have hml : ((tfsSortedPairs row).map Prod.fst).indexOf i ≠
          ((tfsCurvCdfSpec nm row).map (fun c => decide (thr < c))).length + 1 := by
        rw [hcl]
        omega
      have hmidb : ((tfsSortedPairs row).map Prod.fst).indexOf i - 1 <
          (tfsCurvCdfSpec nm row).length := by
        rw [length_tfsCurvCdfSpec]
        omega
      have hmg : ((tfsCurvCdfSpec nm row).map (fun c => decide (thr < c))).getD
          (((tfsSortedPairs row).map Prod.fst).indexOf i - 1) false =
          decide (thr < (tfsCurvCdfSpec nm row).getD
            (((tfsSortedPairs row).map Prod.fst).indexOf i - 1) 0) := by
        rw [List.getD_eq_getElem _ _ (by rw [List.length_map]; exact hmidb), List.getElem_map]
        rw [List.getD_eq_getElem _ _ hmidb]
      rw [if_neg h0, if_neg hml, hmg, if_neg h0, if_neg hlast]
      by_cases hc : thr < (tfsCurvCdfSpec nm row).getD
          (((tfsSortedPairs row).map Prod.fst).indexOf i - 1) 0 <;> simp [hc]

theorem tfsExampleRow_sorted_snd :
    (tfsSortedPairs tfsExampleRow).map Prod.snd = tfsExampleRow := by
  decide

theorem tfsExampleRow_curv : tfsCurvCdf ratNumModel tfsExampleRow = [1, 1] := by
  unfold tfsCurvCdf
  rw [tfsExampleRow_sorted_snd]
  unfold tfsExampleRow
  norm_num [softmaxRow, expE, ratNumModel, diffL, cumsum, cumsumGo, abs, max_def]

theorem tfsExampleRow_curvSpec : tfsCurvCdfSpec ratNumModel tfsExampleRow = [1/2, 1] := by
  unfold tfsCurvCdfSpec
  rw [tfsExampleRow_sorted_snd]
  unfold tfsExampleRow
  norm_num [softmaxRow, expE, ratNumModel, diffL, cumsum, cumsumGo, abs, max_def]

/-- C3 (amended): the tail-free filter sorts each row descending (stable
in the original index); the curvature mass is the absolute second
discrete derivative of the softmax of the sorted logits (not of the
cumulative-probability curve), normalized to sum 1 and cumulative-
summed; a sorted position is removed once the curvature mass before it
strictly exceeds the row's threshold; the top boundary token of the
sorted order is always exempted, and the bottom boundary token is always
removed (not exempted). -/
theorem c3_tfs_sorted_curvature_boundaries (nm : NumModel) (thr : ℚ) (row : List ELogit)
    (i : ℕ) (hn : 2 ≤ row.length) (hi : i < row.length) :
    List.Sorted pairGE (tfsSortedPairs row) ∧
    (applyTfsRow nm thr row).getD i ⊥ =
      (if ((tfsSortedPairs row).map Prod.fst).indexOf i = 0 then row.getD i ⊥
      else if ((tfsSortedPairs row).map Prod.fst).indexOf i = row.length - 1 then ⊥
      else if thr < (tfsCurvCdf nm row).getD
          (((tfsSortedPairs row).map Prod.fst).indexOf i - 1) 0 then ⊥
      else row.getD i ⊥) :=
  ⟨List.sorted_insertionSort pairGE row.enum, applyTfsRow_getD_char nm thr row i hn hi⟩

/-- C3 counterexample: on the descending row `[4, 2, 1, 0]` the bottom
boundary token is removed by the filter even with threshold 1 (the
spec-worded filter, which exempts it, keeps it); and with threshold 3/5
the filter and the spec-worded filter (whose curvature is the second
derivative of the cumulative-probability curve) disagree on the
second-highest token. -/
theorem c3_counterexample :
    (applyTfsRow ratNumModel 1 tfsExampleRow).getD 3 ⊥ = ⊥ ∧
    (applyTfsRowSpec ratNumModel 1 tfsExampleRow).getD 3 ⊥ = ((0 : ℚ) : ELogit) ∧
    (applyTfsRow ratNumModel (3/5) tfsExampleRow).getD 1 ⊥ = ⊥ ∧
    (applyTfsRowSpec ratNumModel (3/5) tfsExampleRow).getD 1 ⊥ = ((2 : ℚ) : ELogit) := by
  have hidx3 : ((tfsSortedPairs tfsExampleRow).map Prod.fst).indexOf 3 = 3 := by decide
  have hidx1 : ((tfsSortedPairs tfsExampleRow).map Prod.fst).indexOf 1 = 1 := by decide
  refine ⟨?_, ?_, ?_, ?_⟩
  · rw [applyTfsRow_getD_char ratNumModel 1 tfsExampleRow 3 (by decide) (by decide), hidx3]
    norm_num [tfsExampleRow]
  · rw [applyTfsRowSpec_getD_char ratNumModel 1 tfsExampleRow 3 (by decide) (by decide), hidx3]
    norm_num [tfsExampleRow]
  · rw [applyTfsRow_getD_char ratNumModel (3/5) tfsExampleRow 1 (by decide) (by decide),
      hidx1, tfsExampleRow_curv]
    norm_num [tfsExampleRow]
  · rw [applyTfsRowSpec_getD_char ratNumModel (3/5) tfsExampleRow 1 (by decide) (by decide),
      hidx1, tfsExampleRow_curvSpec]
    norm_num [tfsExampleRow]

/-- C3 witness: on the concrete row `[4, 2, 1, 0]` the filter at
threshold 1 keeps the top boundary token. -/
theorem c3_witness :
    (applyTfsRow ratNumModel 1 tfsExampleRow).getD 0 ⊥ = ((4 : ℚ) : ELogit) := by
  have h := (c3_tfs_sorted_curvature_boundaries ratNumModel 1 tfsExampleRow 0
    (by decide) (by decide)).2
  rw [h]
  decide

theorem argmaxGo_spec (ys : List ℚ) : ∀ (pos bi : ℕ) (bv : ℚ), ∃ w : ℚ,
    bv ≤ w ∧ (∀ y ∈ ys, y ≤ w) ∧
    ((argmaxGo pos bi bv ys = bi ∧ w = bv) ∨
      ∃ j, j < ys.length ∧ argmaxGo pos bi bv ys = pos + j ∧ w = ys.getD j 0) := by
  induction ys with
  | nil =>
    intro pos bi bv
    exact ⟨bv, le_rfl, by simp, Or.inl ⟨rfl, rfl⟩⟩
  | cons y ys ih =>
    intro pos bi bv
    unfold argmaxGo
    by_cases hlt : bv < y
    · obtain ⟨w, hyw, hall, hcase⟩ := ih (pos + 1) pos y
      rw [if_pos hlt]
      refine ⟨w, le_of_lt (lt_of_lt_of_le hlt hyw), ?_, ?_⟩
      · intro z hz
        rcases List.mem_cons.1 hz with rfl | hz2
        · exact hyw
        · exact hall z hz2
      · rcases hcase with ⟨heq, hw⟩ | ⟨j, hj, heq, hw⟩
        · exact Or.inr ⟨0, by simp, by rw [heq, Nat.add_zero], by rw [hw]; rfl⟩
        · refine Or.inr ⟨j + 1, by simp; omega, ?_, ?_⟩
          · rw [heq]; omega
          · rw [hw, List.getD_cons_succ]
    · obtain ⟨w, hyw, hall, hcase⟩ := ih (pos + 1) bi bv
      rw [if_neg hlt]
      refine ⟨w, hyw, ?_, ?_⟩
      · intro z hz
        rcases List.mem_cons.1 hz with rfl | hz2
        · exact le_trans (not_lt.1 hlt) hyw
        · exact hall z hz2
      · rcases hcase with ⟨heq, hw⟩ | ⟨j, hj, heq, hw⟩
        · exact Or.inl ⟨heq, hw⟩
        · refine Or.inr ⟨j + 1, by simp; omega, ?_, ?_⟩
          · rw [heq]; omega
          · rw [hw, List.getD_cons_succ]

theorem argmaxList_spec (l : List ℚ) (h : l ≠ []) :
    argmaxList l < l.length ∧ ∀ y ∈ l, y ≤ l.getD (argmaxList l) 0 := by
  match l with
  | [] => exact absurd rfl h
  | x :: xs =>
    obtain ⟨w, hxw, hall, hcase⟩ := argmaxGo_spec xs 1 0 x
    have hal : argmaxList (x :: xs) = argmaxGo 1 0 x xs := rfl
    rcases hcase with ⟨heq, hw⟩ | ⟨j, hj, heq, hw⟩
    · constructor
      · rw [hal, heq]
        simp
      · intro y hy
        have hg : (x :: xs).getD (argmaxList (x :: xs)) 0 = w := by
          rw [hal, heq, hw]
          rfl
        rw [hg]
        rcases List.mem_cons.1 hy with rfl | hy2
        · exact hxw
        · exact hall y hy2
    · constructor
      · rw [hal, heq]
        simp
        omega
      · intro y hy
        have hg : (x :: xs).getD (argmaxList (x :: xs)) 0 = w := by
          rw [hal, heq, hw]
          have : 1 + j = j + 1 := by omega
          rw [this, List.getD_cons_succ]
        rw [hg]
        rcases List.mem_cons.1 hy with rfl | hy2
        · exact hxw
        · exact hall y hy2

theorem expE_nonneg (nm : NumModel) (he : ∀ q, 0 < nm.e q) (x : ELogit) : 0 ≤ expE nm x := by
  cases x with
  | none => exact le_refl 0
  | some q => exact le_of_lt (he q)

theorem expE_pos_iff (nm : NumModel) (he : ∀ q, 0 < nm.e q) (x : ELogit) :
    0 < expE nm x ↔ x ≠ ⊥ := by
  cases x with
  | none =>
    simp [expE]
    rfl
  | some q =>
    constructor
    · intro _
      exact WithBot.coe_ne_bot
    · intro _
      exact he q

theorem expE_sum_pos (nm : NumModel) (he : ∀ q, 0 < nm.e q) (row : List ELogit)
    (v : ℕ) (hv : v < row.length) (hx : row[v] ≠ ⊥) :
    0 < (row.map (expE nm)).sum := by
  have hmem : expE nm row[v] ∈ row.map (expE nm) :=
    List.mem_map.2 ⟨row[v], List.getElem_mem hv, rfl⟩
  have hle : expE nm row[v] ≤ (row.map (expE nm)).sum :=
    List.single_le_sum (by
      intro x hxm
      obtain ⟨y, _, rfl⟩ := List.mem_map.1 hxm
      exact expE_nonneg nm he y) _ hmem
  exact lt_of_lt_of_le ((expE_pos_iff nm he _).2 hx) hle

theorem softmaxRow_getD_eq (nm : NumModel) (row : List ELogit) (v : ℕ) (hv : v < row.length) :
    (softmaxRow nm row).getD v 0 = expE nm row[v] / (row.map (expE nm)).sum := by
  unfold softmaxRow
  have hb : v < (row.map (fun x => expE nm x / (row.map (expE nm)).sum)).length := by
    simpa using hv
  rw [List.getD_eq_getElem _ _ hb, List.getElem_map]

theorem softmaxRow_getD_pos (nm : NumModel) (he : ∀ q, 0 < nm.e q) (row : List ELogit)
    (v : ℕ) (hv : v < row.length) (hx : row[v] ≠ ⊥) :
    0 < (softmaxRow nm row).getD v 0 := by
  rw [softmaxRow_getD_eq nm row v hv]
  exact div_pos ((expE_pos_iff nm he _).2 hx) (expE_sum_pos nm he row v hv hx)

theorem softmaxRow_getD_pos_rev (nm : NumModel) (row : List ELogit)
    (v : ℕ) (hv : v < row.length) (hp : 0 < (softmaxRow nm row).getD v 0) :
    row[v] ≠ ⊥ := by
  intro hbot
  rw [softmaxRow_getD_eq nm row v hv, hbot] at hp
  simp [expE] at hp

theorem softmaxRow_getD_le_one (nm : NumModel) (he : ∀ q, 0 < nm.e q) (row : List ELogit)
    (v : ℕ) (hv : v < row.length) :
    (softmaxRow nm row).getD v 0 ≤ 1 := by
  rw [softmaxRow_getD_eq nm row v hv]
  have hnn : ∀ x ∈ row.map (expE nm), 0 ≤ x := by
    intro x hxm
    obtain ⟨y, _, rfl⟩ := List.mem_map.1 hxm
    exact expE_nonneg nm he y
  have hle : expE nm row[v] ≤ (row.map (expE nm)).sum :=
    List.single_le_sum hnn _ (List.mem_map.2 ⟨row[v], List.getElem_mem hv, rfl⟩)
  rcases eq_or_lt_of_le (List.sum_nonneg hnn) with hz | hs
  · rw [← hz, div_zero]
    exact zero_le_one
  · exact (div_le_one hs).2 hle

theorem le_listMax (l : List ℚ) : ∀ x ∈ l, x ≤ listMax l := by
  induction l with
  | nil => simp
  | cons y ys ih =>
    intro x hx
    rcases List.mem_cons.1 hx with rfl | hx2
    · exact le_max_left _ _
    · exact le_trans (ih x hx2) (le_max_right _ _)

theorem listMax_mem_or_zero (l : List ℚ) : listMax l = 0 ∨ listMax l ∈ l := by
  induction l with
  | nil => exact Or.inl rfl
  | cons y ys ih =>
    have hm : listMax (y :: ys) = max y (listMax ys) := rfl
    rcases max_choice y (listMax ys) with hc | hc
    · exact Or.inr (by rw [hm, hc]; exact List.mem_cons_self y ys)
    · rcases ih with hz | hmem
      · exact Or.inl (by rw [hm, hc, hz])
      · exact Or.inr (by rw [hm, hc]; exact List.mem_cons_of_mem y hmem)

theorem alive_unsortGather (n : ℕ) (idxList : List ℕ) (final : List ELogit)
    (hperm : idxList.Perm (List.range n)) (t : ℕ) (ht : t < n)
    (hf : final.getD t ⊥ ≠ ⊥) :
    ∃ x ∈ unsortGather n idxList final, x ≠ ⊥ := by
  have hlen : idxList.length = n := by
    rw [hperm.length_eq, List.length_range]
  have ht2 : t < idxList.length := by rw [hlen]; exact ht
  have hnd : idxList.Nodup := hperm.nodup_iff.2 (List.nodup_range n)
  have hidx : idxList.indexOf idxList[t] = t := List.indexOf_getElem hnd t ht2
  have hjlt : idxList[t] < n := by
    have : idxList[t] ∈ List.range n := hperm.subset (List.getElem_mem ht2)
    rwa [List.mem_range] at this
  refine ⟨final.getD t ⊥, ?_, hf⟩
  unfold unsortGather
  refine List.mem_map.2 ⟨idxList[t], List.mem_range.2 hjlt, ?_⟩
  rw [hidx]

theorem alive_applyTemperatureRow (t : ℚ) (row : List ELogit)
    (h : ∃ x ∈ row, x ≠ ⊥) : ∃ x ∈ applyTemperatureRow t row, x ≠ ⊥ := by
  obtain ⟨x, hx, hxb⟩ := h
  refine ⟨WithBot.map (fun v => v / t) x, List.mem_map.2 ⟨x, hx, rfl⟩, ?_⟩
  cases x with
  | none => exact absurd rfl hxb
  | some q => simp [WithBot.map]

theorem alive_applyQuadraticRow (factor curve : ℚ) (row : List ELogit)
    (h : ∃ x ∈ row, x ≠ ⊥) : ∃ x ∈ applyQuadraticRow factor curve row, x ≠ ⊥ := by
  obtain ⟨x, hx, hxb⟩ := h
  unfold applyQuadraticRow
  by_cases hf : 0 < factor
  · rw [if_pos hf]
    refine ⟨_, List.mem_map.2 ⟨x, hx, rfl⟩, ?_⟩
    cases x with
    | none => exact absurd rfl hxb
    | some q =>
      cases hm : row.foldr max ⊥ with
      | none => simp [hm]
      | some m =>
        simp [hm]
        intro hcon
        norm_cast at hcon
  · rw [if_neg hf]
    exact ⟨x, hx, hxb⟩

theorem alive_applyPenaltiesRow (promptToks outToks : List ℕ) (pres freq rep : ℚ)
    (row : List ELogit) (h : ∃ x ∈ row, x ≠ ⊥) :
    ∃ x ∈ applyPenaltiesRow promptToks outToks pres freq rep row, x ≠ ⊥ := by
  obtain ⟨x, hx, hxb⟩ := h
  obtain ⟨v, hv, rfl⟩ := List.mem_iff_getElem.1 hx
  unfold applyPenaltiesRow
  have hev : v < row.enum.length := by simpa using hv
  have henum : (v, row[v]) ∈ row.enum := by
    have hgl := List.getElem_enum row v hev
    rw [← hgl]
    exact List.getElem_mem hev
  refine ⟨_, List.mem_map.2 ⟨(v, row[v]), henum, rfl⟩, ?_⟩
  rcases hq : row[v] with _ | q
  · exact absurd hq hxb
  · simp only [hq, WithBot.map_coe]
    exact WithBot.coe_ne_bot

theorem listMax_nonneg (l : List ℚ) : 0 ≤ listMax l := by
  induction l with
  | nil => exact le_refl 0
  | cons y ys ih => exact le_trans ih (le_max_right y (listMax ys))

theorem listMax_le_one (l : List ℚ) (h : ∀ x ∈ l, x ≤ 1) : listMax l ≤ 1 := by
  induction l with
  | nil => exact zero_le_one
  | cons y ys ih =>
    have hm : listMax (y :: ys) = max y (listMax ys) := rfl
    rw [hm, max_le_iff]
    exact ⟨h y (List.mem_cons_self y ys), ih (fun x hx => h x (List.mem_cons_of_mem y hx))⟩

theorem alive_probMask_zipWith (nm : NumModel) (he : ∀ q, 0 < nm.e q) (row : List ELogit)
    (thr : ℚ) (hthr : thr ≤ listMax (softmaxRow nm row))
    (h : ∃ x ∈ row, x ≠ ⊥) :
    ∃ x ∈ List.zipWith (fun pr x => if pr < thr then (⊥ : ELogit) else x)
        (softmaxRow nm row) row, x ≠ ⊥ := by
  obtain ⟨x, hx, hxb⟩ := h
  obtain ⟨v, hv, rfl⟩ := List.mem_iff_getElem.1 hx
  have hplen : (softmaxRow nm row).length = row.length := length_softmaxRow nm row
  have hpv : 0 < (softmaxRow nm row).getD v 0 := softmaxRow_getD_pos nm he row v hv hxb
  have hmax : 0 < listMax (softmaxRow nm row) :=
    lt_of_lt_of_le hpv (le_listMax _ _ (getD_mem _ 0 v (by rw [hplen]; exact hv)))
  rcases listMax_mem_or_zero (softmaxRow nm row) with hz | hmem
  · rw [hz] at hmax
    exact absurd hmax (lt_irrefl 0)
  · obtain ⟨w, hw, hweq⟩ := List.mem_iff_getElem.1 hmem
    have hwr : w < row.length := by rw [← hplen]; exact hw
    have hwpos : 0 < (softmaxRow nm row).getD w 0 := by
      rw [List.getD_eq_getElem _ _ hw, hweq]
      exact hmax
    have hwne : row[w] ≠ ⊥ := softmaxRow_getD_pos_rev nm row w hwr hwpos
    have hb : w < (List.zipWith (fun pr x => if pr < thr then (⊥ : ELogit) else x)
        (softmaxRow nm row) row).length := by
      rw [List.length_zipWith, hplen, Nat.min_self]
      exact hwr
    refine ⟨_, List.getElem_mem hb, ?_⟩
    rw [List.getElem_zipWith]
    rw [hweq]
    rw [if_neg (not_lt.2 hthr)]
    exact hwne

theorem alive_applyTopARow (nm : NumModel) (he : ∀ q, 0 < nm.e q) (a : ℚ) (ha : a ≤ 1)
    (row : List ELogit) (h : ∃ x ∈ row, x ≠ ⊥) :
    ∃ x ∈ applyTopARow nm a row, x ≠ ⊥ := by
  have hm0 : 0 ≤ listMax (softmaxRow nm row) := listMax_nonneg _
  have hm1 : listMax (softmaxRow nm row) ≤ 1 := by
    apply listMax_le_one
    intro x hxm
    obtain ⟨v, hv, rfl⟩ := List.mem_iff_getElem.1 hxm
    have hvr : v < row.length := by rw [← length_softmaxRow nm row]; exact hv
    rw [← List.getD_eq_getElem _ (0 : ℚ) hv]
    exact softmaxRow_getD_le_one nm he row v hvr
  have hthr : listMax (softmaxRow nm row) ^ 2 * a ≤ listMax (softmaxRow nm row) := by
    nlinarith [mul_nonneg (sub_nonneg.2 ha) (sq_nonneg (listMax (softmaxRow nm row))),
      mul_nonneg (sub_nonneg.2 hm1) hm0]
  exact alive_probMask_zipWith nm he row _ hthr h

theorem alive_applyMinPRow (nm : NumModel) (he : ∀ q, 0 < nm.e q) (p : ℚ) (hp : p ≤ 1)
    (row : List ELogit) (h : ∃ x ∈ row, x ≠ ⊥) :
    ∃ x ∈ applyMinPRow nm p row, x ≠ ⊥ := by
  have hm0 : 0 ≤ listMax (softmaxRow nm row) := listMax_nonneg _
  have hthr : p * listMax (softmaxRow nm row) ≤ listMax (softmaxRow nm row) :=
    mul_le_of_le_one_left hm0 hp
  exact alive_probMask_zipWith nm he row _ hthr h

theorem alive_applyEpsilonCutoffRow (nm : NumModel) (he : ∀ q, 0 < nm.e q) (epsThr : ℚ)
    (row : List ELogit) (h : ∃ x ∈ row, x ≠ ⊥) :
    ∃ x ∈ applyEpsilonCutoffRow nm epsThr row, x ≠ ⊥ := by
  obtain ⟨x, hx, hxb⟩ := h
  obtain ⟨v, hv, rfl⟩ := List.mem_iff_getElem.1 hx
  have hplen : (softmaxRow nm row).length = row.length := length_softmaxRow nm row
  have hpne : softmaxRow nm row ≠ [] := by
    apply List.ne_nil_of_length_pos
    rw [hplen]
    omega
  obtain ⟨htl, hta⟩ := argmaxList_spec (softmaxRow nm row) hpne
  have htr : argmaxList (softmaxRow nm row) < row.length := by rw [← hplen]; exact htl
  have hpv : 0 < (softmaxRow nm row).getD v 0 := softmaxRow_getD_pos nm he row v hv hxb
  have htop : 0 < (softmaxRow nm row).getD (argmaxList (softmaxRow nm row)) 0 :=
    lt_of_lt_of_le hpv (hta _ (getD_mem _ 0 v (by rw [hplen]; exact hv)))
  have htne : row[argmaxList (softmaxRow nm row)] ≠ ⊥ :=
    softmaxRow_getD_pos_rev nm row _ htr htop
  unfold applyEpsilonCutoffRow
  have hev : argmaxList (softmaxRow nm row) < row.enum.length := by simpa using htr
  have henum : (argmaxList (softmaxRow nm row), row[argmaxList (softmaxRow nm row)]) ∈
      row.enum := by
    have hgl := List.getElem_enum row (argmaxList (softmaxRow nm row)) hev
    rw [← hgl]
    exact List.getElem_mem hev
  refine ⟨_, List.mem_map.2 ⟨_, henum, rfl⟩, ?_⟩
  simpa using htne

theorem lseProbs_getD_pos_iff (nm : NumModel) (he : ∀ q, 0 < nm.e q) (row : List ELogit)
    (v : ℕ) (hv : v < row.length) :
    0 < ((logSoftmaxRow nm row).map (expE nm)).getD v 0 ↔ row[v] ≠ ⊥ := by
  unfold logSoftmaxRow
  have hb : v < ((row.map (WithBot.map
      (fun q => q - nm.ln ((row.map (expE nm)).sum)))).map (expE nm)).length := by
    simpa using hv
  rw [List.getD_eq_getElem _ _ hb, List.getElem_map, List.getElem_map]
  cases hq : row[v] with
  | none =>
    constructor
    · intro hcon
      simp [WithBot.map, expE] at hcon
    · intro hcon
      exact absurd rfl hcon
  | some q =>
    constructor
    · intro _
      exact WithBot.coe_ne_bot
    · intro _
      exact he _

theorem length_lseProbs (nm : NumModel) (row : List ELogit) :
    ((logSoftmaxRow nm row).map (expE nm)).length = row.length := by
  unfold logSoftmaxRow
  simp

theorem alive_applyEtaCutoffRow (nm : NumModel) (he : ∀ q, 0 < nm.e q) (eta : ℚ)
    (row : List ELogit) (h : ∃ x ∈ row, x ≠ ⊥) :
    ∃ x ∈ applyEtaCutoffRow nm eta row, x ≠ ⊥ := by
  obtain ⟨x, hx, hxb⟩ := h
  obtain ⟨v, hv, rfl⟩ := List.mem_iff_getElem.1 hx
  have hplen : ((logSoftmaxRow nm row).map (expE nm)).length = row.length :=
    length_lseProbs nm row
  have hpne : (logSoftmaxRow nm row).map (expE nm) ≠ [] := by
    apply List.ne_nil_of_length_pos
    rw [hplen]
    omega
  obtain ⟨htl, hta⟩ := argmaxList_spec ((logSoftmaxRow nm row).map (expE nm)) hpne
  have htr : argmaxList ((logSoftmaxRow nm row).map (expE nm)) < row.length := by
    rw [← hplen]; exact htl
  have hpv : 0 < ((logSoftmaxRow nm row).map (expE nm)).getD v 0 :=
    (lseProbs_getD_pos_iff nm he row v hv).2 hxb
  have htop : 0 < ((logSoftmaxRow nm row).map (expE nm)).getD
      (argmaxList ((logSoftmaxRow nm row).map (expE nm))) 0 :=
    lt_of_lt_of_le hpv (hta _ (getD_mem _ 0 v (by rw [hplen]; exact hv)))
  have htne : row[argmaxList ((logSoftmaxRow nm row).map (expE nm))] ≠ ⊥ :=
    (lseProbs_getD_pos_iff nm he row _ htr).1 htop
  unfold applyEtaCutoffRow
  have hev : argmaxList ((logSoftmaxRow nm row).map (expE nm)) < row.enum.length := by
    simpa using htr
  have henum : (argmaxList ((logSoftmaxRow nm row).map (expE nm)),
      row[argmaxList ((logSoftmaxRow nm row).map (expE nm))]) ∈ row.enum := by
    have hgl := List.getElem_enum row (argmaxList ((logSoftmaxRow nm row).map (expE nm))) hev
    rw [← hgl]
    exact List.getElem_mem hev
  refine ⟨_, List.mem_map.2 ⟨_, henum, rfl⟩, ?_⟩
  simpa using htne

theorem zipMask_getD_ne_bot (mask : List Bool) (vals : List ELogit) (t : ℕ)
    (ht : t < mask.length) (ht2 : t < vals.length)
    (hm : mask[t] = false) (hv : vals[t] ≠ ⊥) :
    (List.zipWith (fun (m : Bool) v => if m then (⊥ : ELogit) else v) mask vals).getD t ⊥ ≠ ⊥ := by
  have hb : t < (List.zipWith (fun (m : Bool) v => if m then (⊥ : ELogit) else v)
      mask vals).length := by
    rw [List.length_zipWith]
    omega
  rw [List.getD_eq_getElem _ _ hb, List.getElem_zipWith, hm]
  simpa using hv

theorem getD_set_zero_false (l : List Bool) : (l.set 0 false).getD 0 false = false := by
  cases l with
  | nil => rfl
  | cons x xs => rfl

theorem pairLE_refl {β : Type} [LinearOrder β] (a : ℕ × β) : pairLE a a :=
  Or.inr ⟨rfl, le_rfl⟩

theorem typicalDevs_getD_top_iff (negEnt : ℚ) (shifted : List ELogit) (j : ℕ)
    (hj : j < shifted.length) :
    (typicalDevs negEnt shifted).getD j ⊤ = ⊤ ↔ shifted[j] = ⊥ := by
  unfold typicalDevs
  have hb : j < (shifted.map (fun s => match s with
      | ⊥ => (⊤ : WithTop ℚ)
      | (v : ℚ) => ((abs (negEnt - v) : ℚ) : WithTop ℚ))).length := by
    simpa using hj
  rw [List.getD_eq_getElem _ _ hb, List.getElem_map]
  cases hq : shifted[j] with
  | none =>
    simp
    rfl
  | some q =>
    constructor
    · intro hcon
      exact absurd hcon WithTop.coe_ne_top
    · intro hcon
      exact absurd hcon WithBot.coe_ne_bot

theorem length_typicalDevs (negEnt : ℚ) (shifted : List ELogit) :
    (typicalDevs negEnt shifted).length = shifted.length := by
  unfold typicalDevs
  simp

theorem length_logSoftmaxRow (nm : NumModel) (row : List ELogit) :
    (logSoftmaxRow nm row).length = row.length := by
  unfold logSoftmaxRow
  simp

theorem logSoftmaxRow_getElem_bot_iff (nm : NumModel) (row : List ELogit) (j : ℕ)
    (hj : j < row.length) (hj2 : j < (logSoftmaxRow nm row).length) :
    (logSoftmaxRow nm row)[j] = ⊥ ↔ row[j] = ⊥ := by
  unfold logSoftmaxRow at hj2 ⊢
  rw [List.getElem_map]
  cases hq : row[j] with
  | none => simp [WithBot.map]
  | some q =>
    constructor
    · intro hcon
      exact absurd hcon WithBot.coe_ne_bot
    · intro hcon
      exact absurd hcon WithBot.coe_ne_bot

theorem alive_applyTypicalRow (nm : NumModel) (tp : ℚ)
    (row : List ELogit) (h : ∃ x ∈ row, x ≠ ⊥) :
    ∃ x ∈ applyTypicalRow nm tp row, x ≠ ⊥ := by
  obtain ⟨x, hx, hxb⟩ := h
  obtain ⟨v, hv, rfl⟩ := List.mem_iff_getElem.1 hx
  have hlen_sh : (logSoftmaxRow nm row).length = row.length := length_logSoftmaxRow nm row
  have hlen_devs : (typicalDevs (negEntropy ((logSoftmaxRow nm row).map (expE nm))
      (logSoftmaxRow nm row)) (logSoftmaxRow nm row)).length = row.length := by
    rw [length_typicalDevs, hlen_sh]
  have hv_sh : v < (logSoftmaxRow nm row).length := by rw [hlen_sh]; exact hv
  have hsh_ne : (logSoftmaxRow nm row)[v] ≠ ⊥ := by
    intro hcon
    exact hxb ((logSoftmaxRow_getElem_bot_iff nm row v hv hv_sh).1 hcon)
  have hdev_ne : (typicalDevs (negEntropy ((logSoftmaxRow nm row).map (expE nm))
      (logSoftmaxRow nm row)) (logSoftmaxRow nm row)).getD v ⊤ ≠ ⊤ := by
    intro hcon
    exact hsh_ne ((typicalDevs_getD_top_iff _ _ v hv_sh).1 hcon)
  have hsp_ne : (typicalDevs (negEntropy ((logSoftmaxRow nm row).map (expE nm))
      (logSoftmaxRow nm row)) (logSoftmaxRow nm row)).enum.insertionSort pairLE ≠ [] := by
    apply List.ne_nil_of_length_pos
    rw [List.length_insertionSort, List.enum_length, hlen_devs]
    omega
  obtain ⟨hd, tl, hcons⟩ := List.exists_cons_of_ne_nil hsp_ne
  have hsorted : List.Sorted pairLE ((typicalDevs (negEntropy
      ((logSoftmaxRow nm row).map (expE nm)) (logSoftmaxRow nm row))
      (logSoftmaxRow nm row)).enum.insertionSort pairLE) :=
    List.sorted_insertionSort pairLE _
  have hv_devs : v < (typicalDevs (negEntropy ((logSoftmaxRow nm row).map (expE nm))
      (logSoftmaxRow nm row)) (logSoftmaxRow nm row)).length := by
    rw [hlen_devs]; exact hv
  have hpv_mem : (v, (typicalDevs (negEntropy ((logSoftmaxRow nm row).map (expE nm))
      (logSoftmaxRow nm row)) (logSoftmaxRow nm row))[v]) ∈
      (typicalDevs (negEntropy ((logSoftmaxRow nm row).map (expE nm))
      (logSoftmaxRow nm row)) (logSoftmaxRow nm row)).enum.insertionSort pairLE := by
    apply (List.perm_insertionSort pairLE _).symm.subset
    have hev : v < (typicalDevs (negEntropy ((logSoftmaxRow nm row).map (expE nm))
        (logSoftmaxRow nm row)) (logSoftmaxRow nm row)).enum.length := by
      simpa using hv_devs
    have hgl := List.getElem_enum (typicalDevs (negEntropy
        ((logSoftmaxRow nm row).map (expE nm)) (logSoftmaxRow nm row))
        (logSoftmaxRow nm row)) v hev
    rw [← hgl]
    exact List.getElem_mem hev
  have hrel : pairLE hd (v, (typicalDevs (negEntropy ((logSoftmaxRow nm row).map (expE nm))
      (logSoftmaxRow nm row)) (logSoftmaxRow nm row))[v]) := by
    rw [hcons] at hpv_mem hsorted
    rcases List.mem_cons.1 hpv_mem with heq | hmem2
    · rw [heq]
      exact pairLE_refl hd
    · exact List.rel_of_sorted_cons hsorted _ hmem2
  have hdev_ne2 : (typicalDevs (negEntropy ((logSoftmaxRow nm row).map (expE nm))
      (logSoftmaxRow nm row)) (logSoftmaxRow nm row))[v] ≠ ⊤ := by
    intro hcon
    apply hdev_ne
    rw [List.getD_eq_getElem _ _ hv_devs]
    exact hcon
  have hhd2_ne : hd.2 ≠ ⊤ := by
    have hle : hd.2 ≤ (typicalDevs (negEntropy ((logSoftmaxRow nm row).map (expE nm))
        (logSoftmaxRow nm row)) (logSoftmaxRow nm row))[v] := by
      rcases hrel with hlt | ⟨heq, _⟩
      · exact le_of_lt hlt
      · exact le_of_eq heq
    intro hcon
    rw [hcon] at hle
    exact hdev_ne2 (top_le_iff.1 hle)
  have hhd_mem : hd ∈ (typicalDevs (negEntropy ((logSoftmaxRow nm row).map (expE nm))
      (logSoftmaxRow nm row)) (logSoftmaxRow nm row)).enum := by
    apply (List.perm_insertionSort pairLE _).subset
    rw [hcons]
    exact List.mem_cons_self hd tl
  have hhd_get : (typicalDevs (negEntropy ((logSoftmaxRow nm row).map (expE nm))
      (logSoftmaxRow nm row)) (logSoftmaxRow nm row))[hd.1]? = some hd.2 :=
    List.mem_enum_iff_getElem?.mp hhd_mem
  have hhd1_lt : hd.1 < row.length := by
    have := List.getElem?_eq_some.1 hhd_get
    rw [← hlen_devs]
    exact this.1
  have hhd1_devs : hd.1 < (typicalDevs (negEntropy ((logSoftmaxRow nm row).map (expE nm))
      (logSoftmaxRow nm row)) (logSoftmaxRow nm row)).length := by
    rw [hlen_devs]; exact hhd1_lt
  have hhd1_sh : hd.1 < (logSoftmaxRow nm row).length := by rw [hlen_sh]; exact hhd1_lt
  have hrow_hd_ne : row[hd.1] ≠ ⊥ := by
    intro hcon
    apply hhd2_ne
    have hshbot : (logSoftmaxRow nm row)[hd.1] = ⊥ :=
      (logSoftmaxRow_getElem_bot_iff nm row hd.1 hhd1_lt hhd1_sh).2 hcon
    have := (typicalDevs_getD_top_iff (negEntropy ((logSoftmaxRow nm row).map (expE nm))
      (logSoftmaxRow nm row)) (logSoftmaxRow nm row) hd.1 hhd1_sh).2 hshbot
    rw [List.getD_eq_getElem _ _ hhd1_devs] at this
    rw [List.getElem?_eq_getElem hhd1_devs] at hhd_get
    rw [← Option.some_inj.mp hhd_get]
    exact this
  unfold applyTypicalRow
  have hev2 : hd.1 < row.enum.length := by simpa using hhd1_lt
  have henum2 : (hd.1, row[hd.1]) ∈ row.enum := by
    have hgl := List.getElem_enum row hd.1 hev2
    rw [← hgl]
    exact List.getElem_mem hev2
  refine ⟨_, List.mem_map.2 ⟨(hd.1, row[hd.1]), henum2, rfl⟩, ?_⟩
  simp only [hcons, List.map_cons]
  simp only [List.indexOf_cons_self, getD_set_zero_false]
  simpa using hrow_hd_ne

theorem alive_applyTopKTopPRow (nm : NumModel) (p : ℚ) (k : ℕ) (row : List ELogit)
    (hk1 : 1 ≤ k) (hk2 : k ≤ row.length) (h : ∃ x ∈ row, x ≠ ⊥) :
    ∃ x ∈ applyTopKTopPRow nm p k row, x ≠ ⊥ := by
  obtain ⟨x, hx, hxb⟩ := h
  have hn : 1 ≤ row.length := le_trans hk1 hk2
  unfold applyTopKTopPRow
  have hperm0 : ((row.enum.insertionSort pairLE).map Prod.fst).Perm
      (List.range row.length) := sortPairs_map_fst_perm pairLE row
  have hsorted : List.Sorted pairLE (row.enum.insertionSort pairLE) :=
    List.sorted_insertionSort pairLE row.enum
  have hvals_len : ((row.enum.insertionSort pairLE).map Prod.snd).length = row.length := by
    simp
  have hvals_sorted : List.Sorted (fun a b : ELogit => a ≤ b)
      ((row.enum.insertionSort pairLE).map Prod.snd) := by
    refine hsorted.map Prod.snd ?_
    intro a b hab
    rcases hab with h1 | ⟨h1, _⟩
    · exact le_of_lt h1
    · exact le_of_eq h1
  have hx_mem_sorted : x ∈ (row.enum.insertionSort pairLE).map Prod.snd := by
    have hperm := (List.perm_insertionSort pairLE row.enum).map Prod.snd
    rw [List.enum_map_snd] at hperm
    exact hperm.symm.subset hx
  obtain ⟨t, ht, hteq⟩ := List.mem_iff_getElem.1 hx_mem_sorted
  haveI : IsRefl ELogit (fun a b : ELogit => a ≤ b) := ⟨fun a => le_rfl⟩
  have hlast_lt : row.length - 1 < ((row.enum.insertionSort pairLE).map Prod.snd).length := by
    rw [hvals_len]
    omega
  have hle_last : ((row.enum.insertionSort pairLE).map Prod.snd).get ⟨t, ht⟩ ≤
      ((row.enum.insertionSort pairLE).map Prod.snd).get ⟨row.length - 1, hlast_lt⟩ := by
    apply List.Sorted.rel_get_of_le hvals_sorted
    have ht2 : t < row.length := by rwa [hvals_len] at ht
    exact Fin.mk_le_mk.2 (by omega)
  have hlast_ne : ((row.enum.insertionSort pairLE).map Prod.snd)[row.length - 1] ≠ ⊥ := by
    intro hcon
    have hget : ((row.enum.insertionSort pairLE).map Prod.snd).get ⟨t, ht⟩ = x := hteq
    rw [hget] at hle_last
    have hgl : ((row.enum.insertionSort pairLE).map Prod.snd).get ⟨row.length - 1, hlast_lt⟩ =
        ((row.enum.insertionSort pairLE).map Prod.snd)[row.length - 1] := rfl
    rw [hgl, hcon] at hle_last
    exact hxb (le_bot_iff.1 hle_last)
  have hnk_lt : row.length - k < ((row.enum.insertionSort pairLE).map Prod.snd).length := by
    rw [hvals_len]
    omega
  have hthr_le : ((row.enum.insertionSort pairLE).map Prod.snd).getD (row.length - k) ⊥ ≤
      ((row.enum.insertionSort pairLE).map Prod.snd)[row.length - 1] := by
    rw [List.getD_eq_getElem _ _ hnk_lt]
    have := List.Sorted.rel_get_of_le hvals_sorted
      (a := ⟨row.length - k, hnk_lt⟩) (b := ⟨row.length - 1, hlast_lt⟩)
      (Fin.mk_le_mk.2 (by omega))
    exact this
  have hkm_len : (((row.enum.insertionSort pairLE).map Prod.snd).map
      (fun v => if v < ((row.enum.insertionSort pairLE).map Prod.snd).getD
        (row.length - k) ⊥ then (⊥ : ELogit) else v)).length = row.length := by
    rw [List.length_map, hvals_len]
  have hkmb : row.length - 1 < (((row.enum.insertionSort pairLE).map Prod.snd).map
      (fun v => if v < ((row.enum.insertionSort pairLE).map Prod.snd).getD
        (row.length - k) ⊥ then (⊥ : ELogit) else v)).length := by
    rw [hkm_len]
    omega
  have hkm_last : (((row.enum.insertionSort pairLE).map Prod.snd).map
      (fun v => if v < ((row.enum.insertionSort pairLE).map Prod.snd).getD
        (row.length - k) ⊥ then (⊥ : ELogit) else v))[row.length - 1] =
      ((row.enum.insertionSort pairLE).map Prod.snd)[row.length - 1] := by
    rw [List.getElem_map]
    rw [if_neg (not_lt.2 hthr_le)]
  apply alive_unsortGather row.length _ _ hperm0 (row.length - 1) (by omega)
  have hm0_len : ((cumsum (softmaxRow nm (((row.enum.insertionSort pairLE).map
      Prod.snd).map (fun v => if v < ((row.enum.insertionSort pairLE).map Prod.snd).getD
        (row.length - k) ⊥ then (⊥ : ELogit) else v)))).map
      (fun c => decide (c ≤ 1 - p))).length = row.length := by
    rw [List.length_map, length_cumsum, length_softmaxRow, hkm_len]
  have hset_idx : ((cumsum (softmaxRow nm (((row.enum.insertionSort pairLE).map
      Prod.snd).map (fun v => if v < ((row.enum.insertionSort pairLE).map Prod.snd).getD
        (row.length - k) ⊥ then (⊥ : ELogit) else v)))).map
      (fun c => decide (c ≤ 1 - p))).length - 1 = row.length - 1 := by
    rw [hm0_len]
  rw [hset_idx]
  apply zipMask_getD_ne_bot
  case ht =>
    rw [List.length_set, hm0_len]
    omega
  case ht2 =>
    rw [hkm_len]
    omega
  case hm => exact List.getElem_set_self _
  case hv =>
    rw [hkm_last]
    exact hlast_ne

theorem alive_applyTfsRow (nm : NumModel) (thr : ℚ) (row : List ELogit)
    (h : ∃ x ∈ row, x ≠ ⊥) :
    ∃ x ∈ applyTfsRow nm thr row, x ≠ ⊥ := by
  obtain ⟨x, hx, hxb⟩ := h
  have hn : 1 ≤ row.length := by
    have := List.length_pos_of_mem hx
    omega
  unfold applyTfsRow
  have hperm0 : ((tfsSortedPairs row).map Prod.fst).Perm (List.range row.length) := by
    unfold tfsSortedPairs
    exact sortPairs_map_fst_perm pairGE row
  have hsorted : List.Sorted pairGE (tfsSortedPairs row) :=
    List.sorted_insertionSort pairGE row.enum
  have hvals_len : ((tfsSortedPairs row).map Prod.snd).length = row.length :=
    length_tfsSortedVals row
  have hvals_sorted : List.Sorted (fun a b : ELogit => b ≤ a)
      ((tfsSortedPairs row).map Prod.snd) := by
    refine hsorted.map Prod.snd ?_
    intro a b hab
    rcases hab with h1 | ⟨h1, _⟩
    · exact le_of_lt h1
    · exact le_of_eq h1.symm
  have hx_mem_sorted : x ∈ (tfsSortedPairs row).map Prod.snd := by
    have hperm := (List.perm_insertionSort pairGE row.enum).map Prod.snd
    rw [List.enum_map_snd] at hperm
    unfold tfsSortedPairs
    exact hperm.symm.subset hx
  obtain ⟨t, ht, hteq⟩ := List.mem_iff_getElem.1 hx_mem_sorted
  haveI : IsRefl ELogit (fun a b : ELogit => b ≤ a) := ⟨fun a => le_rfl⟩
  have hzero_lt : 0 < ((tfsSortedPairs row).map Prod.snd).length := by
    rw [hvals_len]
    omega
  have hle_head : ((tfsSortedPairs row).map Prod.snd).get ⟨t, ht⟩ ≤
      ((tfsSortedPairs row).map Prod.snd).get ⟨0, hzero_lt⟩ := by
    exact List.Sorted.rel_get_of_le hvals_sorted (Fin.mk_le_mk.2 (Nat.zero_le t))
  have hhead_ne : ((tfsSortedPairs row).map Prod.snd)[0] ≠ ⊥ := by
    intro hcon
    have hget : ((tfsSortedPairs row).map Prod.snd).get ⟨t, ht⟩ = x := hteq
    rw [hget] at hle_head
    have hgl : ((tfsSortedPairs row).map Prod.snd).get ⟨0, hzero_lt⟩ =
        ((tfsSortedPairs row).map Prod.snd)[0] := rfl
    rw [hgl, hcon] at hle_head
    exact hxb (le_bot_iff.1 hle_head)
  apply alive_unsortGather row.length _ _ hperm0 0 (by omega)
  apply zipMask_getD_ne_bot
  case ht =>
    unfold tfsFullMask
    simp
  case ht2 =>
    rw [hvals_len]
    omega
  case hm => rfl
  case hv => exact hhead_ne

theorem length_applyPenaltiesRow (promptToks outToks : List ℕ) (pres freq rep : ℚ)
    (row : List ELogit) :
    (applyPenaltiesRow promptToks outToks pres freq rep row).length = row.length := by
  unfold applyPenaltiesRow
  simp

theorem length_applyTemperatureRow (t : ℚ) (row : List ELogit) :
    (applyTemperatureRow t row).length = row.length := by
  unfold applyTemperatureRow
  simp

/-- C2 (amended): provided every row still has at least one non-`-inf`
entry after the minimum-token gate, all rows have the vocabulary width,
and the truncation parameters lie in their validated ranges (each top-k
between 1 and the vocabulary size, each top-a and min-p at most 1), then
after the entire filter pipeline every row retains at least one entry
that is not `-inf`: every truncation filter keeps at least one token. -/
theorem c2_rows_alive (nm : NumModel) (fl : PipelineFlags) (ts : SamplingTensorsM)
    (groups : List SeqGroupM) (lg : LMat) (V : ℕ)
    (he : ∀ q, 0 < nm.e q) (hV1 : 1 ≤ V)
    (halive : RowsAlive (applyMinTokensPenalty groups lg))
    (hlens : RowLens V (applyMinTokensPenalty groups lg))
    (hk : ∀ k ∈ ts.topKs, 1 ≤ k ∧ k ≤ V)
    (ha : ∀ a ∈ ts.topAs, a ≤ 1)
    (hp : ∀ p ∈ ts.minPs, p ≤ 1) :
    RowsAlive (forwardLogits nm fl ts groups lg) := by
  unfold forwardLogits
  set m0 := applyMinTokensPenalty groups lg with hm0
  set m1 := if fl.doPenalties = true then applyPenalties ts m0 else m0 with hm1
  set m2 := applyTemperatures ts m1 with hm2
  set m3 := if fl.doTopPTopK = true then applyTopKTopP nm ts m2 else m2 with hm3
  set m4 := if fl.doTopAs = true then applyTopA nm ts m3 else m3 with hm4
  set m5 := if fl.doMinP = true then applyMinP nm ts m4 else m4 with hm5
  set m6 := if fl.doTfss = true then applyTfs nm ts m5 else m5 with hm6
  set m7 := if fl.doEtaCutoffs = true then applyEtaCutoff nm ts m6 else m6 with hm7
  set m8 := if fl.doEpsilonCutoffs = true then applyEpsilonCutoff nm ts m7 else m7 with hm8
  set m9 := if fl.doTypicalPs = true then applyTypicalSampling nm ts m8 else m8 with hm9
  have a1 : RowsAlive m1 := by
    rw [hm1]
    by_cases hb : fl.doPenalties = true
    · rw [if_pos hb]
      unfold applyPenalties
      refine rowsAlive_mapRowsP _ _ ?_ halive
      intro r hr hrow
      exact alive_applyPenaltiesRow _ _ _ _ _ _ hrow
    · rw [if_neg hb]
      exact halive
  have l1 : RowLens V m1 := by
    rw [hm1]
    by_cases hb : fl.doPenalties = true
    · rw [if_pos hb]
      unfold applyPenalties
      refine rowLens_mapRowsP V _ _ ?_ hlens
      intro r row
      exact length_applyPenaltiesRow _ _ _ _ _ _
    · rw [if_neg hb]
      exact hlens
  have a2 : RowsAlive m2 := by
    rw [hm2]
    unfold applyTemperatures
    refine rowsAlive_mapRowsP _ _ ?_ a1
    intro r hr hrow
    exact alive_applyTemperatureRow _ _ hrow
  have l2 : RowLens V m2 := by
    rw [hm2]
    unfold applyTemperatures
    refine rowLens_mapRowsP V _ _ ?_ l1
    intro r row
    exact length_applyTemperatureRow _ _
  have a3 : RowsAlive m3 := by
    rw [hm3]
    by_cases hb : fl.doTopPTopK = true
    · rw [if_pos hb]
      unfold applyTopKTopP
      refine rowsAlive_mapRowsP _ _ ?_ a2
      intro r hr hrow
      have hrowlen : (m2.getD r []).length = V := l2 _ (getD_mem _ _ r hr)
      have hkr : 1 ≤ ts.topKs.getD r 1 ∧ ts.topKs.getD r 1 ≤ V := by
        rcases lt_or_ge r ts.topKs.length with h2 | h2
        · exact hk _ (getD_mem _ _ r h2)
        · rw [List.getD_eq_default _ _ h2]
          exact ⟨le_rfl, hV1⟩
      refine alive_applyTopKTopPRow nm _ _ _ hkr.1 ?_ hrow
      rw [hrowlen]
      exact hkr.2
    · rw [if_neg hb]
      exact a2
  have a4 : RowsAlive m4 := by
    rw [hm4]
    by_cases hb : fl.doTopAs = true
    · rw [if_pos hb]
      unfold applyTopA
      refine rowsAlive_mapRowsP _ _ ?_ a3
      intro r hr hrow
      have har : ts.topAs.getD r 0 ≤ 1 := by
        rcases lt_or_ge r ts.topAs.length with h2 | h2
        · exact ha _ (getD_mem _ _ r h2)
        · rw [List.getD_eq_default _ _ h2]
          exact zero_le_one
      exact alive_applyTopARow nm he _ har _ hrow
    · rw [if_neg hb]
      exact a3
  have a5 : RowsAlive m5 := by
    rw [hm5]
    by_cases hb : fl.doMinP = true
    · rw [if_pos hb]
      unfold applyMinP
      refine rowsAlive_mapRowsP _ _ ?_ a4
      intro r hr hrow
      have hpr : ts.minPs.getD r 0 ≤ 1 := by
        rcases lt_or_ge r ts.minPs.length with h2 | h2
        · exact hp _ (getD_mem _ _ r h2)
        · rw [List.getD_eq_default _ _ h2]
          exact zero_le_one
      exact alive_applyMinPRow nm he _ hpr _ hrow
    · rw [if_neg hb]
      exact a4
  have a6 : RowsAlive m6 := by
    rw [hm6]
    by_cases hb : fl.doTfss = true
    · rw [if_pos hb]
      unfold applyTfs
      refine rowsAlive_mapRowsP _ _ ?_ a5
      intro r hr hrow
      exact alive_applyTfsRow nm _ _ hrow
    · rw [if_neg hb]
      exact a5
  have a7 : RowsAlive m7 := by
    rw [hm7]
    by_cases hb : fl.doEtaCutoffs = true
    · rw [if_pos hb]
      unfold applyEtaCutoff
      refine rowsAlive_mapRowsP _ _ ?_ a6
      intro r hr hrow
      exact alive_applyEtaCutoffRow nm he _ _ hrow
    · rw [if_neg hb]
      exact a6
  have a8 : RowsAlive m8 := by
    rw [hm8]
    by_cases hb : fl.doEpsilonCutoffs = true
    · rw [if_pos hb]
      unfold applyEpsilonCutoff
      refine rowsAlive_mapRowsP _ _ ?_ a7
      intro r hr hrow
      exact alive_applyEpsilonCutoffRow nm he _ _ hrow
    · rw [if_neg hb]
      exact a7
  have a9 : RowsAlive m9 := by
    rw [hm9]
    by_cases hb : fl.doTypicalPs = true
    · rw [if_pos hb]
      unfold applyTypicalSampling
      refine rowsAlive_mapRowsP _ _ ?_ a8
      intro r hr hrow
      exact alive_applyTypicalRow nm _ _ hrow
    · rw [if_neg hb]
      exact a8
  by_cases hb : fl.doQuadratic = true
  · rw [if_pos hb]
    unfold applyQuadraticSampling
    refine rowsAlive_mapRowsP _ _ ?_ a9
    intro r hr hrow
    exact alive_applyQuadraticRow _ _ _ hrow
  · rw [if_neg hb]
    exact a9

theorem ratNumModel_e_pos : ∀ q : ℚ, 0 < ratNumModel.e q := by
  intro q
  unfold ratNumModel
  by_cases hq : 0 ≤ q
  · simp only [hq, if_pos]
    linarith
  · simp only [hq, if_false]
    have h1 : 0 < 1 - q := by
      have := not_le.1 hq
      linarith
    exact div_pos one_pos h1

/-- C2 counterexample: with stop-token ids covering the whole
vocabulary and the minimum-token count unmet, the gate masks every
entry of the row and the pipeline output row has no non-`-inf` entry. -/
theorem c2_counterexample :
    forwardLogits ratNumModel {} { temperatures := [1] } [stopAllGroup]
        [[((1 : ℚ) : ELogit), ((2 : ℚ) : ELogit)]] = [[⊥, ⊥]] ∧
    ¬ RowsAlive [[(⊥ : ELogit), ⊥]] := by
  constructor
  · decide
  · decide

/-- C2 witness: the full pipeline with every filter active keeps a live
token in the concrete row `[1, 2, 3]`. -/
theorem c2_witness :
    RowsAlive (forwardLogits ratNumModel allFlags exampleTensors [plainGroup]
      [[((1 : ℚ) : ELogit), ((2 : ℚ) : ELogit), ((3 : ℚ) : ELogit)]]) :=
  c2_rows_alive ratNumModel allFlags exampleTensors [plainGroup]
    [[((1 : ℚ) : ELogit), ((2 : ℚ) : ELogit), ((3 : ℚ) : ELogit)]] 3
    ratNumModel_e_pos (by decide) (by decide) (by decide) (by decide) (by decide) (by decide)

end AphroditeSampler
